import Mathlib

/-!
Verification development for the go-utils repository: a shallow embedding in
Lean 4 of the splitter (`utils/splitter`) and housekeeper (`utils/housekeeper`)
components, together with theorems settling the specification claims.

Modelling conventions:
* Machine integers of the Go source become `Int`/`Nat` (no overflow is relevant
  at the sizes the claims quantify over).
* File contents are `List Char`; the filesystem is an association list from
  paths to contents plus a set of created directories.
* Time is an abstract `Int` measured in hours (only comparisons of
  modification times against the cutoff matter to the claims).
* Fallible operations return `Except String`; the error strings abbreviate the
  Go error messages.
-/

namespace GoUtils

/-! ### bufio.Scanner with ScanLines

`SplitFileByLines` reads the source with `bufio.NewScanner(file)` at the
default maximum token size (`bufio.MaxScanTokenSize = 64 * 1024`).  The
scanner splits on '\n', drops a trailing '\r' from each token, emits a final
unterminated token at EOF, and fails with `ErrTooLong` as soon as a segment of
`maxScanTokenSize` bytes is buffered without a terminator being found.
-/

def maxScanTokenSize : Nat := 64 * 1024

/-- `dropCR` from bufio: drops a single terminal '\r' from the segment. -/
def dropCR (s : List Char) : List Char :=
  if s.getLast? = some '\r' then s.dropLast else s

/-- One pass of the scanner: `seg` is the data buffered since the previous
terminator.  Returns the tokens emitted before any failure together with the
`ErrTooLong` flag (`true` exactly when some inter-terminator segment reaches
`maxScanTokenSize` bytes). -/
def scanAux : List Char → List Char → List (List Char) × Bool
  | [], seg =>
    if seg = [] then ([], false)
    else if maxScanTokenSize ≤ seg.length then ([], true)
    else ([dropCR seg], false)
  | c :: rest, seg =>
    if c = '\n' then
      if maxScanTokenSize ≤ seg.length then ([], true)
      else
        let r := scanAux rest []
        (dropCR seg :: r.1, r.2)
    else scanAux rest (seg ++ [c])

/-- The full token stream of a source file's content: the list of lines the
scanner yields (in order, before any too-long failure) and whether
`scanner.Err()` reports `ErrTooLong` afterwards. -/
def scanTokens (content : List Char) : List (List Char) × Bool :=
  scanAux content []

/-! ### Specification-side chunking -/

/-- Plain chunking of a list into consecutive pieces of `P` elements, the
last piece possibly shorter.  For `P > 0` this is the reference description of
the part structure; `splitParts` is proved equal to it below. -/
def chunksSpec (P : Nat) : List α → List (List α)
  | [] => []
  | x :: xs => (x :: xs.take (P - 1)) :: chunksSpec P (xs.drop (P - 1))
termination_by l => l.length
decreasing_by simp; omega

/-- Append an element to the last piece of a list of lists (creating a
singleton piece when there is none). -/
def appendLast : List (List α) → α → List (List α)
  | [], w => [[w]]
  | [l], w => [l ++ [w]]
  | l :: l' :: ls, w => l :: appendLast (l' :: ls) w

/-! ### A local filesystem

Association list from paths to byte contents, plus the set of directories
created so far.  `setFile` models `os.Create`/a completed write (the entry for
the path is replaced), `removeFile` models `os.Remove`, `renameFile` models
`os.Rename` (failing when the source is absent), `mkdirAll` models
`os.MkdirAll` (which never fails in the model). -/

structure FS where
  files : List (String × List Char)
  dirs : List String
deriving Repr, DecidableEq

def lookupFile (fs : FS) (p : String) : Option (List Char) :=
  (fs.files.find? fun e => decide (e.1 = p)).map fun e => e.2

def setFile (fs : FS) (p : String) (v : List Char) : FS :=
  { fs with files := (p, v) :: fs.files.filter fun e => decide (e.1 ≠ p) }

def removeFile (fs : FS) (p : String) : FS :=
  { fs with files := fs.files.filter fun e => decide (e.1 ≠ p) }

def createFile (fs : FS) (p : String) : FS :=
  setFile fs p []

def appendToFile (fs : FS) (p : String) (cs : List Char) : FS :=
  setFile fs p ((lookupFile fs p).getD [] ++ cs)

def renameFile (fs : FS) (src dst : String) : Option FS :=
  match lookupFile fs src with
  | none => none
  | some c => some (setFile (removeFile fs src) dst c)

def mkdirAll (fs : FS) (d : String) : FS :=
  { fs with dirs := if d ∈ fs.dirs then fs.dirs else fs.dirs ++ [d] }

/-! ### Path helpers (filepath.Base, filepath.Ext, strings.TrimSuffix) -/

/-- `filepath.Base`: the final element of the path. -/
def pathBase (p : String) : String :=
  String.mk ((p.toList.reverse.takeWhile fun c => c ≠ '/').reverse)

/-- `filepath.Ext`: the suffix beginning at the final dot of the final
element, empty when the final element has no dot. -/
def pathExt (p : String) : String :=
  let fe := p.toList.reverse.takeWhile fun c => c ≠ '/'
  if '.' ∈ fe then String.mk ('.' :: (fe.takeWhile fun c => c ≠ '.').reverse) else ""

/-- `strings.TrimSuffix`. -/
def trimSuffix (s suf : String) : String :=
  if suf.toList.isSuffixOf s.toList then
    String.mk (s.toList.take (s.toList.length - suf.toList.length))
  else s

/-- The output path of part `i`:
`filepath.Join(outputDir, fmt.Sprintf("%s_part%d%s", baseName, i, fileExt))`. -/
def partPath (outputDir baseName ext : String) (i : Nat) : String :=
  outputDir ++ "/" ++ baseName ++ "_part" ++ toString i ++ ext

/-! ### SplitFileByLines (src/unnamed/part_002)

`wfail` is the oracle for `writer.WriteString` failures: `wfail k = true`
means writing the line of 0-based global index `k` fails.  Part contents are
written through to the filesystem as the loop runs (`Flush` is a no-op in the
model; the mid-failure content of the currently open part, which Go leaves
partially buffered, is not relied on by any theorem).  The loop returns the
filesystem, the final `fileCount`, the path of the open output file (Go keeps
`outputFile` live after the loop for the final close), and the result. -/

def writeLoop (wfail : Nat → Bool) (P : Nat) (outputDir baseName ext : String) :
    List (List Char) → Nat → Nat → Option String → FS →
      FS × Nat × Option String × Except String Unit
  | [], _, fileCount, cur, fs => (fs, fileCount, cur, .ok ())
  | line :: rest, linesCount, fileCount, cur, fs =>
    let next :=
      if linesCount % P = 0 then
        (createFile fs (partPath outputDir baseName ext fileCount), fileCount + 1,
          some (partPath outputDir baseName ext fileCount))
      else (fs, fileCount, cur)
    if wfail linesCount then (next.1, next.2.1, next.2.2, .error "failed to write to output file")
    else
      writeLoop wfail P outputDir baseName ext rest (linesCount + 1) next.2.1 next.2.2
        (appendToFile next.1 (next.2.2.getD "") (line ++ ['\n']))

structure SplitOutcome where
  fs : FS
  result : Except String Nat
deriving Repr

/-- The phase of `SplitFileByLines` after the source was opened and read:
scan, write the parts, check the scan error, relocate the source.  The `ok`
payload is the `actualFileCount` reported in the summary log. -/
def splitAfterOpen (wfail : Nat → Bool) (P : Nat) (filePath outputDir processedDir : String)
    (content : List Char) (fs2 : FS) : SplitOutcome :=
  let scanned := scanTokens content
  let fileName := pathBase filePath
  let ext := pathExt filePath
  let baseName := trimSuffix fileName ext
  let loopOut := writeLoop wfail P outputDir baseName ext scanned.1 0 1 none fs2
  match loopOut.2.2.2 with
  | .error e => ⟨loopOut.1, .error e⟩
  | .ok _ =>
    if scanned.2 then ⟨loopOut.1, .error "error reading file"⟩
    else
      match renameFile loopOut.1 filePath (processedDir ++ "/" ++ fileName) with
      | none => ⟨loopOut.1, .error "failed to move file to processed directory"⟩
      | some fs3 => ⟨fs3, .ok (loopOut.2.1 - 1)⟩

/-- `Splitter.SplitFileByLines` with an explicit write-failure oracle. -/
def SplitFileByLinesW (wfail : Nat → Bool) (fs : FS) (filePath : String)
    (linesPerFile : Int) (outputDir processedDir : String) : SplitOutcome :=
  if linesPerFile ≤ 0 then ⟨fs, .error "lines per file must be positive"⟩
  else if filePath = "" ∨ outputDir = "" ∨ processedDir = "" then
    ⟨fs, .error "filePath, outputDir, and processedDir must not be empty"⟩
  else
    let fs1 := mkdirAll fs outputDir
    let fs2 := mkdirAll fs1 processedDir
    match lookupFile fs2 filePath with
    | none => ⟨fs2, .error ("failed to open file " ++ filePath)⟩
    | some content =>
      splitAfterOpen wfail linesPerFile.toNat filePath outputDir processedDir content fs2

/-- `Splitter.SplitFileByLines`: all writes succeed. -/
def SplitFileByLines (fs : FS) (filePath : String) (linesPerFile : Int)
    (outputDir processedDir : String) : SplitOutcome :=
  SplitFileByLinesW (fun _ => false) fs filePath linesPerFile outputDir processedDir

/-! ### Housekeeper (src/unnamed/part_005)

Directory listings are `List DirEntry` snapshots; file trees for the
walk-based age pruning are `FSTree` values.  `rmFail` is the oracle for
`os.Remove` failures.  Time is an `Int` in hours, so the cutoff
`now.Add(-time.Duration(maxAgeDays*24) * time.Hour)` is `now - maxAgeDays * 24`. -/

structure DirEntry where
  name : String
  modTime : Int
deriving Repr, DecidableEq

/-- The comparator of the `sort.Slice` call, totalized: Go sorts with the
strict `ModTime().Before`, and `sort.Slice` leaves the order of ties
unspecified (the spec documents the secondary order as unspecified); the
model determinizes it with a merge sort by `≤` on modification times, which
produces one of the admissible orders. -/
def entryLe (a b : DirEntry) : Bool := decide (a.modTime ≤ b.modTime)

/-- The deletion loop of `HousekeepFilesByCount` over the oldest entries:
failures are logged and skipped, successes are accumulated. -/
def removeLoop (dir : String) (rmFail : String → Bool) : List DirEntry → List String
  | [] => []
  | e :: es =>
    let path := dir ++ "/" ++ e.name
    if rmFail path then removeLoop dir rmFail es
    else path :: removeLoop dir rmFail es

/-- `Housekeeper.HousekeepFilesByCount`.  The `ok` payload is the list of
removed paths (in removal order; `logRemovals` sorts a copy for printing). -/
def HousekeepFilesByCount (rmFail : String → Bool) (dirExists : Bool)
    (entries : List DirEntry) (dir : String) (maxFiles : Int) : Except String (List String) :=
  if maxFiles < 0 then .error "maxFiles must be >= 0"
  else if ¬ dirExists then .error "directory does not exist"
  else if (entries.length : Int) ≤ maxFiles then .ok []
  else
    let sorted := entries.mergeSort entryLe
    .ok (removeLoop dir rmFail (sorted.take (entries.length - maxFiles.toNat)))

/-- A node of the directory tree walked by `filepath.Walk`. -/
inductive FSTree where
  | file (name : String) (modTime : Int)
  | dir (name : String) (children : List FSTree)
deriving Repr

def FSTree.name : FSTree → String
  | .file n _ => n
  | .dir n _ => n

mutual
/-- The walk function of `HousekeepFilesByAge`: directories other than the
root are skipped (`filepath.SkipDir`) unless `recFlag`; a regular file is
removed when its modification time is strictly before the cutoff, a removal
failure being logged and skipped.  Returns the removed paths in walk order. -/
def walkNode (recFlag : Bool) (cutoff : Int) (rmFail : String → Bool)
    (rootDir : String) (path : String) : FSTree → List String
  | .file _ mt =>
    if mt < cutoff then (if rmFail path then [] else [path]) else []
  | .dir _ children =>
    if ¬ recFlag ∧ path ≠ rootDir then []
    else walkChildren recFlag cutoff rmFail rootDir path children

def walkChildren (recFlag : Bool) (cutoff : Int) (rmFail : String → Bool)
    (rootDir : String) (path : String) : List FSTree → List String
  | [] => []
  | c :: cs =>
    walkNode recFlag cutoff rmFail rootDir (path ++ "/" ++ c.name) c ++
      walkChildren recFlag cutoff rmFail rootDir path cs
end

/-- `Housekeeper.HousekeepFilesByAge` (walk-based revision, with the variadic
`recursive ...bool` parameter modelled as the list it is).  The `ok` payload
is the list of removed paths. -/
def HousekeepFilesByAge (rmFail : String → Bool) (dirExists : Bool) (root : FSTree)
    (dir : String) (maxAgeDays : Int) (now : Int) (recursive : List Bool) :
    Except String (List String) :=
  if maxAgeDays < 0 then .error "maxAgeDays must be >= 0"
  else if ¬ dirExists then .error "directory does not exist"
  else
    let recursiveFlag := recursive.headD false
    let cutoff := now - maxAgeDays * 24
    .ok (walkNode recursiveFlag cutoff rmFail dir dir root)

mutual
/-- The regular files the walk considers: `(path, modTime)` of every file
node visited (directories other than the root skipped unless `recFlag`). -/
def consideredNode (recFlag : Bool) (rootDir : String) (path : String) :
    FSTree → List (String × Int)
  | .file _ mt => [(path, mt)]
  | .dir _ children =>
    if ¬ recFlag ∧ path ≠ rootDir then []
    else consideredChildren recFlag rootDir path children

def consideredChildren (recFlag : Bool) (rootDir : String) (path : String) :
    List FSTree → List (String × Int)
  | [] => []
  | c :: cs =>
    consideredNode recFlag rootDir (path ++ "/" ++ c.name) c ++
      consideredChildren recFlag rootDir path cs
end

mutual
/-- All file paths in the subtree rooted at `path`. -/
def filePathsNode (path : String) : FSTree → List String
  | .file _ _ => [path]
  | .dir _ children => filePathsChildren path children

def filePathsChildren (path : String) : List FSTree → List String
  | [] => []
  | c :: cs => filePathsNode (path ++ "/" ++ c.name) c ++ filePathsChildren path cs
end

mutual
/-- All directory paths in the subtree rooted at `path` (including the root
when it is a directory). -/
def dirPathsNode (path : String) : FSTree → List String
  | .file _ _ => []
  | .dir _ children => path :: dirPathsChildren path children

def dirPathsChildren (path : String) : List FSTree → List String
  | [] => []
  | c :: cs => dirPathsNode (path ++ "/" ++ c.name) c ++ dirPathsChildren path cs
end

/-! ### Lemmas about `chunksSpec` and `appendLast` -/

theorem chunksSpec_nil (P : Nat) : chunksSpec P ([] : List α) = [] := by
  simp [chunksSpec]

theorem chunksSpec_cons (P : Nat) (x : α) (xs : List α) :
    chunksSpec P (x :: xs) = (x :: xs.take (P - 1)) :: chunksSpec P (xs.drop (P - 1)) := by
  rw [chunksSpec]

theorem chunksSpec_eq_nil_iff (P : Nat) (l : List α) : chunksSpec P l = [] ↔ l = [] := by
  cases l with
  | nil => simp [chunksSpec_nil]
  | cons x xs => simp [chunksSpec_cons]

theorem chunksSpec_flatten (P : Nat) (l : List α) : (chunksSpec P l).flatten = l := by
  induction l using chunksSpec.induct P with
  | case1 => simp [chunksSpec_nil]
  | case2 x xs ih => rw [chunksSpec_cons]; simp [ih]

theorem chunksSpec_length (P : Nat) (hP : 0 < P) (l : List α) :
    (chunksSpec P l).length = (l.length + P - 1) / P := by
  induction l using chunksSpec.induct P with
  | case1 =>
    rw [chunksSpec_nil]
    simp [Nat.div_eq_of_lt (show P - 1 < P by omega)]
  | case2 x xs ih =>
    rw [chunksSpec_cons]
    simp only [List.length_cons, ih, List.length_drop]
    have hstep : xs.length + 1 + P - 1 = xs.length + P := by omega
    rw [hstep, Nat.add_div_right _ hP]
    by_cases hc : P - 1 ≤ xs.length
    · have h1 : xs.length - (P - 1) + P - 1 = xs.length := by omega
      rw [h1]
    · have h1 : xs.length - (P - 1) = 0 := by omega
      rw [h1]
      rw [Nat.div_eq_of_lt (show 0 + P - 1 < P by omega),
        Nat.div_eq_of_lt (show xs.length < P by omega)]

theorem chunksSpec_append_of_mod_eq (P : Nat) (hP : 0 < P) (l : List α) (w : α)
    (h : l.length % P = 0) : chunksSpec P (l ++ [w]) = chunksSpec P l ++ [[w]] := by
  induction l using chunksSpec.induct P with
  | case1 => simp [chunksSpec_cons, chunksSpec_nil]
  | case2 x xs ih =>
    have hd : P ∣ xs.length + 1 := Nat.dvd_iff_mod_eq_zero.mpr (by simpa using h)
    have hge : P - 1 ≤ xs.length := by
      have := Nat.le_of_dvd (by omega) hd
      omega
    have ih2 : chunksSpec P (xs.drop (P - 1) ++ [w]) = chunksSpec P (xs.drop (P - 1)) ++ [[w]] := by
      apply ih
      have hd2 : P ∣ xs.length + 1 - P := Nat.dvd_sub' hd (Nat.dvd_refl P)
      have hlen : (xs.drop (P - 1)).length = xs.length + 1 - P := by
        simp [List.length_drop]; omega
      rw [hlen]
      exact Nat.dvd_iff_mod_eq_zero.mp hd2
    rw [List.cons_append, chunksSpec_cons,
      List.take_append_of_le_length hge, List.drop_append_of_le_length hge,
      ih2, chunksSpec_cons, List.cons_append]

theorem appendLast_ne_nil (L : List (List α)) (w : α) : appendLast L w ≠ [] := by
  match L with
  | [] => simp [appendLast]
  | [l] => simp [appendLast]
  | l :: l' :: ls => simp [appendLast]

theorem appendLast_cons (L : List (List α)) (c : List α) (w : α) (hL : L ≠ []) :
    appendLast (c :: L) w = c :: appendLast L w := by
  match L with
  | [] => exact absurd rfl hL
  | l' :: ls => rfl

theorem appendLast_length (L : List (List α)) (w : α) (hL : L ≠ []) :
    (appendLast L w).length = L.length := by
  induction L with
  | nil => exact absurd rfl hL
  | cons c L ih =>
    cases L with
    | nil => simp [appendLast]
    | cons l' ls =>
      rw [appendLast_cons _ _ _ (by simp)]
      simp only [List.length_cons]
      rw [ih (by simp)]
      simp

theorem appendLast_dropLast (L : List (List α)) (w : α) :
    (appendLast L w).dropLast = L.dropLast := by
  induction L with
  | nil => simp [appendLast]
  | cons c L ih =>
    cases L with
    | nil => simp [appendLast]
    | cons l' ls =>
      rw [appendLast_cons _ _ _ (by simp),
        List.dropLast_cons_of_ne_nil (appendLast_ne_nil _ _),
        List.dropLast_cons_of_ne_nil (by simp), ih]

theorem appendLast_getLast? (L : List (List α)) (w : α) :
    (appendLast L w).getLast? = some ((L.getLast?.getD []) ++ [w]) := by
  induction L with
  | nil => simp [appendLast]
  | cons c L ih =>
    cases L with
    | nil => simp [appendLast]
    | cons l' ls =>
      rw [appendLast_cons _ _ _ (by simp)]
      rw [List.getLast?_cons_cons] at *
      rcases ls with _ | ⟨a, as⟩
      · simp [appendLast]
      · rw [List.getLast?_cons_cons]
        rw [appendLast_cons _ _ _ (by simp)] at ih
        rcases as with _ | _
        · simp [appendLast] at ih ⊢
        · rw [List.getLast?_cons_cons] at *
          exact ih

theorem chunksSpec_append_of_mod_ne (P : Nat) (hP : 0 < P) (l : List α) (w : α)
    (h : l.length % P ≠ 0) :
    chunksSpec P (l ++ [w]) = appendLast (chunksSpec P l) w := by
  induction l using chunksSpec.induct P with
  | case1 => simp at h
  | case2 x xs ih =>
    by_cases hsmall : xs.length + 1 ≤ P - 1
    · have ht : (P - 1) ≥ (xs ++ [w]).length := by simp; omega
      rw [List.cons_append, chunksSpec_cons, List.take_of_length_le ht,
        List.drop_of_length_le ht, chunksSpec_nil, chunksSpec_cons,
        List.take_of_length_le (by omega), List.drop_of_length_le (by omega),
        chunksSpec_nil]
      simp [appendLast]
    · have hP1 : xs.length ≥ P := by
        by_contra hc
        have hx : xs.length = P - 1 := by omega
        simp only [List.length_cons] at h
        rw [hx] at h
        have : P - 1 + 1 = P := by omega
        rw [this] at h
        simp at h
      have hge : P - 1 ≤ xs.length := by omega
      have hmod : (xs.drop (P - 1)).length % P ≠ 0 := by
        simp only [List.length_drop]
        have heq : (xs.length + 1) % P = (xs.length - (P - 1)) % P := by
          rw [Nat.mod_eq_sub_mod (show xs.length + 1 ≥ P by omega)]
          congr 1
          omega
        simp only [List.length_cons] at h
        rw [heq] at h
        exact h
      have hne : chunksSpec P (xs.drop (P - 1)) ≠ [] := by
        rw [Ne, chunksSpec_eq_nil_iff]
        intro hnil
        have := congrArg List.length hnil
        simp [List.length_drop] at this
        omega
      rw [List.cons_append, chunksSpec_cons,
        List.take_append_of_le_length hge, List.drop_append_of_le_length hge,
        ih hmod, chunksSpec_cons, appendLast_cons _ _ _ hne]

theorem chunksSpec_dropLast_length (P : Nat) (hP : 0 < P) (l : List α) :
    ∀ c ∈ (chunksSpec P l).dropLast, c.length = P := by
  induction l using chunksSpec.induct P with
  | case1 => simp [chunksSpec_nil]
  | case2 x xs ih =>
    rw [chunksSpec_cons]
    by_cases hc : chunksSpec P (xs.drop (P - 1)) = []
    · rw [hc]
      simp
    · rw [List.dropLast_cons_of_ne_nil hc]
      intro c hcmem
      rcases List.mem_cons.mp hcmem with hcfirst | hcrest
      · subst hcfirst
        have hge : P - 1 ≤ xs.length := by
          by_contra hlt
          rw [List.drop_of_length_le (by omega)] at hc
          exact hc (chunksSpec_nil P)
        simp [List.length_take]
        omega
      · exact ih c hcrest

theorem chunksSpec_getLast?_length (P : Nat) (hP : 0 < P) (l : List α) (hl : l ≠ []) :
    ∃ last, (chunksSpec P l).getLast? = some last ∧
      last.length = if l.length % P = 0 then P else l.length % P := by
  induction l using chunksSpec.induct P with
  | case1 => exact absurd rfl hl
  | case2 x xs ih =>
    rw [chunksSpec_cons]
    by_cases hc : chunksSpec P (xs.drop (P - 1)) = []
    · have hdrop : xs.length ≤ P - 1 := by
        by_contra hlt
        have hne2 : xs.drop (P - 1) ≠ [] := by
          intro hnil
          have := congrArg List.length hnil
          simp at this
          omega
        exact hne2 ((chunksSpec_eq_nil_iff P _).mp hc)
      refine ⟨x :: xs.take (P - 1), ?_, ?_⟩
      · rw [hc]
        rfl
      · rw [List.take_of_length_le hdrop]
        simp only [List.length_cons]
        by_cases hfull : xs.length + 1 = P
        · rw [if_pos (by rw [hfull]; simp)]
          omega
        · rw [if_neg]
          · rw [Nat.mod_eq_of_lt (by omega)]
          · rw [Nat.mod_eq_of_lt (by omega)]
            omega
    · have hdropne : xs.drop (P - 1) ≠ [] := by
        intro hnil
        rw [hnil, chunksSpec_nil] at hc
        exact hc rfl
      have hge : P - 1 ≤ xs.length := by
        by_contra hlt
        rw [List.drop_of_length_le (by omega)] at hdropne
        exact hdropne rfl
      rcases ih hdropne with ⟨last, hlast, hlastlen⟩
      refine ⟨last, ?_, ?_⟩
      · rcases hchunks : chunksSpec P (xs.drop (P - 1)) with _ | ⟨c0, cs⟩
        · exact absurd hchunks hc
        · rw [List.getLast?_cons_cons]
          rw [hchunks] at hlast
          exact hlast
      · have heq : (xs.length + 1) % P = (xs.drop (P - 1)).length % P := by
          simp only [List.length_drop]
          rw [Nat.mod_eq_sub_mod (show xs.length + 1 ≥ P by omega)]
          congr 1
          omega
        simp only [List.length_cons, heq]
        exact hlastlen

/-! ### Lemmas about the filesystem primitives -/

theorem find?_filter_of_imp (l : List α) (pred keep : α → Bool)
    (h : ∀ a, pred a = true → keep a = true) :
    (l.filter keep).find? pred = l.find? pred := by
  induction l with
  | nil => rfl
  | cons a l ih =>
    by_cases hk : keep a = true
    · rw [List.filter_cons_of_pos hk]
      by_cases hp : pred a = true
      · rw [List.find?_cons_of_pos _ hp, List.find?_cons_of_pos _ hp]
      · rw [List.find?_cons_of_neg _ (by simpa using hp),
          List.find?_cons_of_neg _ (by simpa using hp), ih]
    · rw [List.filter_cons_of_neg (by simpa using hk)]
      have hp : ¬ pred a = true := fun hpa => hk (h a hpa)
      rw [List.find?_cons_of_neg _ (by simpa using hp), ih]

theorem lookupFile_setFile_self (fs : FS) (p : String) (v : List Char) :
    lookupFile (setFile fs p v) p = some v := by
  simp [lookupFile, setFile, List.find?_cons_of_pos]

theorem lookupFile_setFile_ne (fs : FS) (p q : String) (v : List Char) (h : q ≠ p) :
    lookupFile (setFile fs p v) q = lookupFile fs q := by
  simp only [lookupFile, setFile]
  rw [List.find?_cons_of_neg _ (by simp; exact fun hh => h hh.symm)]
  rw [find?_filter_of_imp]
  intro a ha
  simp at ha ⊢
  rw [ha]
  exact h

theorem lookupFile_removeFile_self (fs : FS) (p : String) :
    lookupFile (removeFile fs p) p = none := by
  simp only [lookupFile, removeFile]
  have hfind :
      (fs.files.filter fun e => decide (e.1 ≠ p)).find? (fun e => decide (e.1 = p)) = none := by
    rw [List.find?_eq_none]
    intro x hx
    have := List.of_mem_filter hx
    simp at this ⊢
    exact this
  rw [hfind]
  rfl

theorem lookupFile_removeFile_ne (fs : FS) (p q : String) (h : q ≠ p) :
    lookupFile (removeFile fs p) q = lookupFile fs q := by
  simp only [lookupFile, removeFile]
  rw [find?_filter_of_imp]
  intro a ha
  simp at ha ⊢
  intro hap
  rw [hap] at ha
  exact h (by simpa using ha.symm)

theorem lookupFile_mkdirAll (fs : FS) (d q : String) :
    lookupFile (mkdirAll fs d) q = lookupFile fs q := rfl

theorem mkdirAll_files (fs : FS) (d : String) : (mkdirAll fs d).files = fs.files := rfl

theorem lookupFile_setFile_preserves (fs : FS) (p q : String) (v c : List Char)
    (h : lookupFile fs q = some c) :
    ∃ c', lookupFile (setFile fs p v) q = some c' := by
  by_cases hpq : q = p
  · subst hpq
    exact ⟨v, lookupFile_setFile_self fs q v⟩
  · exact ⟨c, by rw [lookupFile_setFile_ne fs p q v hpq]; exact h⟩

theorem lookupFile_appendToFile_self (fs : FS) (p : String) (cs : List Char) :
    lookupFile (appendToFile fs p cs) p = some ((lookupFile fs p).getD [] ++ cs) :=
  lookupFile_setFile_self fs p _

theorem lookupFile_appendToFile_ne (fs : FS) (p q : String) (cs : List Char) (h : q ≠ p) :
    lookupFile (appendToFile fs p cs) q = lookupFile fs q :=
  lookupFile_setFile_ne fs p q _ h

theorem appendLast_getElem?_lt (L : List (List α)) (w : α) (j : Nat) (hj : j + 1 < L.length) :
    (appendLast L w)[j]? = L[j]? := by
  induction L generalizing j with
  | nil => simp at hj
  | cons c L ih =>
    cases L with
    | nil => simp at hj
    | cons l' ls =>
      rw [appendLast_cons _ _ _ (by simp)]
      cases j with
      | zero => simp
      | succ j' =>
        simp only [List.getElem?_cons_succ]
        exact ih j' (by simpa using hj)

theorem appendLast_getElem?_last (L : List (List α)) (w : α) (hL : L ≠ []) :
    (appendLast L w)[L.length - 1]? = some ((L.getLast?.getD []) ++ [w]) := by
  induction L with
  | nil => exact absurd rfl hL
  | cons c L ih =>
    cases L with
    | nil => simp [appendLast]
    | cons l' ls =>
      rw [appendLast_cons _ _ _ (by simp)]
      have hlen : (c :: l' :: ls).length - 1 = (l' :: ls).length - 1 + 1 := by simp
      rw [hlen]
      simp only [List.getElem?_cons_succ]
      rw [ih (by simp)]
      rw [List.getLast?_cons_cons]

/-! ### Lemmas about the splitting loop -/

theorem writeLoop_cons_fail (wfail : Nat → Bool) (P : Nat) (od bn ex : String)
    (t : List Char) (rest : List (List Char)) (lc fc : Nat) (cur : Option String) (fs : FS)
    (hw : wfail lc = true) :
    writeLoop wfail P od bn ex (t :: rest) lc fc cur fs =
      ((if lc % P = 0 then createFile fs (partPath od bn ex fc) else fs),
       (if lc % P = 0 then fc + 1 else fc),
       (if lc % P = 0 then some (partPath od bn ex fc) else cur),
       .error "failed to write to output file") := by
  by_cases hb : lc % P = 0
  · simp [writeLoop, hb, hw]
  · simp [writeLoop, hb, hw]

theorem writeLoop_cons_ok (wfail : Nat → Bool) (P : Nat) (od bn ex : String)
    (t : List Char) (rest : List (List Char)) (lc fc : Nat) (cur : Option String) (fs : FS)
    (hw : wfail lc = false) :
    writeLoop wfail P od bn ex (t :: rest) lc fc cur fs =
      writeLoop wfail P od bn ex rest (lc + 1)
        (if lc % P = 0 then fc + 1 else fc)
        (if lc % P = 0 then some (partPath od bn ex fc) else cur)
        (appendToFile (if lc % P = 0 then createFile fs (partPath od bn ex fc) else fs)
          ((if lc % P = 0 then some (partPath od bn ex fc) else cur).getD "")
          (t ++ ['\n'])) := by
  by_cases hb : lc % P = 0
  · simp [writeLoop, hb, hw]
  · simp [writeLoop, hb, hw]

theorem writeLoop_append (P : Nat) (od bn ex : String) (ts ts' : List (List Char)) :
    ∀ (lc fc : Nat) (cur : Option String) (fs : FS),
    writeLoop (fun _ => false) P od bn ex (ts ++ ts') lc fc cur fs =
      writeLoop (fun _ => false) P od bn ex ts' (lc + ts.length)
        (writeLoop (fun _ => false) P od bn ex ts lc fc cur fs).2.1
        (writeLoop (fun _ => false) P od bn ex ts lc fc cur fs).2.2.1
        (writeLoop (fun _ => false) P od bn ex ts lc fc cur fs).1 := by
  induction ts with
  | nil =>
    intro lc fc cur fs
    simp [writeLoop]
  | cons t rest ih =>
    intro lc fc cur fs
    rw [List.cons_append, writeLoop_cons_ok _ _ _ _ _ _ _ _ _ _ _ rfl,
      writeLoop_cons_ok _ _ _ _ _ _ _ _ _ _ _ rfl, ih]
    have harith : lc + (t :: rest).length = lc + 1 + rest.length := by simp; omega
    rw [harith]

theorem writeLoop_frame (wfail : Nat → Bool) (P : Nat) (od bn ex : String)
    (ts : List (List Char)) :
    ∀ (lc fc : Nat) (cur : Option String) (fs : FS) (q : String),
    (∀ i, fc ≤ i → i < fc + ts.length → q ≠ partPath od bn ex i) →
    q ≠ cur.getD "" →
    lookupFile (writeLoop wfail P od bn ex ts lc fc cur fs).1 q = lookupFile fs q := by
  induction ts with
  | nil =>
    intro lc fc cur fs q _ _
    rfl
  | cons t rest ih =>
    intro lc fc cur fs q hq hcur
    have hqfc : q ≠ partPath od bn ex fc := hq fc (Nat.le_refl fc) (by simp)
    by_cases hw : wfail lc = true
    · rw [writeLoop_cons_fail _ _ _ _ _ _ _ _ _ _ _ hw]
      by_cases hb : lc % P = 0
      · rw [if_pos hb]
        exact lookupFile_setFile_ne fs _ q [] hqfc
      · rw [if_neg hb]
    · rw [writeLoop_cons_ok _ _ _ _ _ _ _ _ _ _ _ (by simpa using hw)]
      by_cases hb : lc % P = 0
      · rw [if_pos hb, if_pos hb, if_pos hb]
        rw [ih (lc + 1) (fc + 1) (some (partPath od bn ex fc)) _ q
          (fun i h1 h2 => hq i (by omega) (by simp at h2 ⊢; omega)) (by simpa using hqfc)]
        simp only [Option.getD_some]
        rw [appendToFile, lookupFile_setFile_ne _ _ _ _ hqfc,
          createFile, lookupFile_setFile_ne _ _ _ _ hqfc]
      · rw [if_neg hb, if_neg hb, if_neg hb]
        rw [ih (lc + 1) fc cur _ q
          (fun i h1 h2 => hq i (by omega) (by simp at h2 ⊢; omega)) hcur]
        rw [appendToFile, lookupFile_setFile_ne _ _ _ _ hcur]

theorem writeLoop_preserves (wfail : Nat → Bool) (P : Nat) (od bn ex : String)
    (ts : List (List Char)) :
    ∀ (lc fc : Nat) (cur : Option String) (fs : FS) (q : String) (c : List Char),
    lookupFile fs q = some c →
    ∃ c', lookupFile (writeLoop wfail P od bn ex ts lc fc cur fs).1 q = some c' := by
  induction ts with
  | nil =>
    intro lc fc cur fs q c h
    exact ⟨c, h⟩
  | cons t rest ih =>
    intro lc fc cur fs q c h
    by_cases hw : wfail lc = true
    · rw [writeLoop_cons_fail _ _ _ _ _ _ _ _ _ _ _ hw]
      by_cases hb : lc % P = 0
      · rw [if_pos hb]
        exact lookupFile_setFile_preserves fs (partPath od bn ex fc) q [] c h
      · rw [if_neg hb]
        exact ⟨c, h⟩
    · rw [writeLoop_cons_ok _ _ _ _ _ _ _ _ _ _ _ (by simpa using hw)]
      by_cases hb : lc % P = 0
      · rw [if_pos hb, if_pos hb, if_pos hb]
        rcases lookupFile_setFile_preserves fs (partPath od bn ex fc) q [] c h with ⟨c1, hc1⟩
        rcases lookupFile_setFile_preserves _ (partPath od bn ex fc) q _ c1 hc1 with ⟨c2, hc2⟩
        exact ih _ _ _ _ q c2 hc2
      · rw [if_neg hb, if_neg hb, if_neg hb]
        rcases lookupFile_setFile_preserves fs (cur.getD "") q _ c h with ⟨c1, hc1⟩
        exact ih _ _ _ _ q c1 hc1

theorem writeLoop_fail_result (wfail : Nat → Bool) (P : Nat) (od bn ex : String) (k : Nat)
    (hw : ∀ j, wfail j = decide (j = k)) (ts : List (List Char)) :
    ∀ (lc fc : Nat) (cur : Option String) (fs : FS),
    lc ≤ k → k < lc + ts.length →
    (writeLoop wfail P od bn ex ts lc fc cur fs).2.2.2 =
      .error "failed to write to output file" := by
  induction ts with
  | nil =>
    intro lc fc cur fs h1 h2
    simp at h2
    omega
  | cons t rest ih =>
    intro lc fc cur fs h1 h2
    by_cases hlk : lc = k
    · rw [writeLoop_cons_fail _ _ _ _ _ _ _ _ _ _ _ (by rw [hw]; simp [hlk])]
    · rw [writeLoop_cons_ok _ _ _ _ _ _ _ _ _ _ _ (by rw [hw]; simp [hlk])]
      exact ih _ _ _ _ (by omega) (by simp at h2 ⊢; omega)

theorem writeLoop_fail_parts (wfail : Nat → Bool) (P : Nat) (hP : 0 < P) (od bn ex : String)
    (k : Nat) (hw : ∀ j, wfail j = decide (j = k)) (ts : List (List Char)) :
    ∀ (lc fc : Nat) (cur : Option String) (fs : FS),
    lc ≤ k → k < lc + ts.length → 1 ≤ fc → lc ≤ (fc - 1) * P →
    (∀ i, 1 ≤ i → i < fc → ∃ c, lookupFile fs (partPath od bn ex i) = some c) →
    ∀ i, 1 ≤ i → i * P ≤ k →
      ∃ c, lookupFile (writeLoop wfail P od bn ex ts lc fc cur fs).1
        (partPath od bn ex i) = some c := by
  induction ts with
  | nil =>
    intro lc fc cur fs h1 h2
    simp at h2
    omega
  | cons t rest ih =>
    intro lc fc cur fs h1 h2 hfc hinv hparts i hi hik
    by_cases hlk : lc = k
    · rw [writeLoop_cons_fail _ _ _ _ _ _ _ _ _ _ _ (by rw [hw]; simp [hlk])]
      have hifc : i < fc := by
        have hle : i * P ≤ (fc - 1) * P := by omega
        have := Nat.le_of_mul_le_mul_right hle hP
        omega
      rcases hparts i hi hifc with ⟨c, hc⟩
      by_cases hb : lc % P = 0
      · rw [if_pos hb]
        exact lookupFile_setFile_preserves fs _ _ [] c hc
      · rw [if_neg hb]
        exact ⟨c, hc⟩
    · rw [writeLoop_cons_ok _ _ _ _ _ _ _ _ _ _ _ (by rw [hw]; simp [hlk])]
      have hfcP : (fc - 1) * P + P = fc * P := by
        have : fc - 1 + 1 = fc := by omega
        calc (fc - 1) * P + P = (fc - 1 + 1) * P := by rw [Nat.succ_mul]
          _ = fc * P := by rw [this]
      by_cases hb : lc % P = 0
      · rw [if_pos hb, if_pos hb, if_pos hb]
        apply ih (lc + 1) (fc + 1) _ _ (by omega) (by simp at h2 ⊢; omega) (by omega)
          (by simp; omega)
        · intro i' hi' hi'fc
          by_cases hieq : i' = fc
          · subst hieq
            simp only [Option.getD_some]
            exact ⟨_, lookupFile_appendToFile_self _ _ _⟩
          · have hlt : i' < fc := by omega
            rcases hparts i' hi' hlt with ⟨c, hc⟩
            rcases lookupFile_setFile_preserves fs (partPath od bn ex fc) _ [] c hc with ⟨c1, hc1⟩
            simp only [Option.getD_some]
            exact lookupFile_setFile_preserves _ (partPath od bn ex fc) _ _ c1 hc1
        · exact hi
        · exact hik
      · rw [if_neg hb, if_neg hb, if_neg hb]
        have hlt : lc < (fc - 1) * P := by
          have hne : lc ≠ (fc - 1) * P := by
            intro heq
            rw [heq] at hb
            exact hb (Nat.mul_mod_left _ _)
          omega
        apply ih (lc + 1) fc _ _ (by omega) (by simp at h2 ⊢; omega) hfc (by omega)
        · intro i' hi' hi'fc
          rcases hparts i' hi' hi'fc with ⟨c, hc⟩
          exact lookupFile_setFile_preserves fs (cur.getD "") _ _ c hc
        · exact hi
        · exact hik

/-- Full characterization of a failure-free run of the loop from the initial
state: it succeeds, it counts `(number of chunks) + 1` files, the open file is
the last part, each part file holds the concatenation of its chunk of
rewritten lines, and no other path is touched.  `hinj` records that the part
paths of distinct indices differ (true of the decimal rendering of the index;
stated as a hypothesis on the finitely many indices used). -/
theorem writeLoop_run (P : Nat) (hP : 0 < P) (od bn ex : String) (ts : List (List Char)) :
    ∀ (fs : FS),
    (∀ j j', j < (chunksSpec P (ts.map fun l => l ++ ['\n'])).length →
        j' < (chunksSpec P (ts.map fun l => l ++ ['\n'])).length →
        partPath od bn ex (j + 1) = partPath od bn ex (j' + 1) → j = j') →
    (writeLoop (fun _ => false) P od bn ex ts 0 1 none fs).2.2.2 = .ok () ∧
    (writeLoop (fun _ => false) P od bn ex ts 0 1 none fs).2.1 =
      (chunksSpec P (ts.map fun l => l ++ ['\n'])).length + 1 ∧
    (writeLoop (fun _ => false) P od bn ex ts 0 1 none fs).2.2.1 =
      (if (chunksSpec P (ts.map fun l => l ++ ['\n'])).length = 0 then none
       else some (partPath od bn ex (chunksSpec P (ts.map fun l => l ++ ['\n'])).length)) ∧
    (∀ j c, (chunksSpec P (ts.map fun l => l ++ ['\n']))[j]? = some c →
        lookupFile (writeLoop (fun _ => false) P od bn ex ts 0 1 none fs).1
          (partPath od bn ex (j + 1)) = some c.flatten) ∧
    (∀ q, (∀ j, j < (chunksSpec P (ts.map fun l => l ++ ['\n'])).length →
          q ≠ partPath od bn ex (j + 1)) →
        lookupFile (writeLoop (fun _ => false) P od bn ex ts 0 1 none fs).1 q =
          lookupFile fs q) := by
  induction ts using List.reverseRecOn with
  | nil =>
    intro fs hinj
    simp only [List.map_nil, chunksSpec_nil, List.length_nil, writeLoop]
    refine ⟨?_, ?_, ?_, ?_, ?_⟩ <;>
      first
      | trivial
      | (intro j c hc
         simp at hc)
      | (intro q hq2
         trivial)
  | append_singleton ts t ih =>
    intro fs hinj
    have hmap : ((ts ++ [t]).map fun l => l ++ ['\n']) =
        (ts.map fun l => l ++ ['\n']) ++ [t ++ ['\n']] := by simp
    rw [hmap] at hinj ⊢
    have hlenws : (ts.map fun l => l ++ ['\n']).length = ts.length := by simp
    have hm : (chunksSpec P (ts.map fun l => l ++ ['\n'])).length ≤
        (chunksSpec P ((ts.map fun l => l ++ ['\n']) ++ [t ++ ['\n']])).length := by
      rw [chunksSpec_length P hP, chunksSpec_length P hP]
      apply Nat.div_le_div_right
      simp
    obtain ⟨h1, h2, h3, h4, h5⟩ := ih fs
      (fun j j' hj hj' heq => hinj j j' (lt_of_lt_of_le hj hm) (lt_of_lt_of_le hj' hm) heq)
    rw [writeLoop_append, writeLoop_cons_ok _ _ _ _ _ _ _ _ _ _ _ rfl]
    simp only [writeLoop, Nat.zero_add, h2]
    by_cases hb : ts.length % P = 0
    · have hchunks : chunksSpec P ((ts.map fun l => l ++ ['\n']) ++ [t ++ ['\n']]) =
          chunksSpec P (ts.map fun l => l ++ ['\n']) ++ [[t ++ ['\n']]] :=
        chunksSpec_append_of_mod_eq P hP _ _ (by rw [hlenws]; exact hb)
      rw [hchunks]
      rw [if_pos hb, if_pos hb, if_pos hb]
      set m := (chunksSpec P (ts.map fun l => l ++ ['\n'])).length with hmdef
      refine ⟨by simp, by simp, by simp, ?_, ?_⟩
      · intro j c hc
        rcases Nat.lt_trichotomy j m with hj | hj | hj
        · have hcj : (chunksSpec P (ts.map fun l => l ++ ['\n']))[j]? = some c := by
            rw [List.getElem?_append_left hj] at hc
            exact hc
          have hne : partPath od bn ex (j + 1) ≠ partPath od bn ex (m + 1) := by
            intro heq
            have := hinj j m (by rw [hchunks]; simp; omega) (by rw [hchunks]; simp) heq
            omega
          simp only [Option.getD_some]
          rw [lookupFile_appendToFile_ne _ _ _ _ hne, createFile,
            lookupFile_setFile_ne _ _ _ _ hne]
          exact h4 j c hcj
        · subst hj
          have hcw : c = [t ++ ['\n']] := by
            rw [hmdef] at hc
            rw [List.getElem?_concat_length] at hc
            exact (Option.some_injective _ hc).symm
          subst hcw
          simp only [Option.getD_some]
          rw [lookupFile_appendToFile_self, createFile, lookupFile_setFile_self]
          simp
        · have : (chunksSpec P (ts.map fun l => l ++ ['\n']) ++ [[t ++ ['\n']]])[j]? = none := by
            rw [List.getElem?_eq_none]
            simp
            omega
          rw [this] at hc
          exact absurd hc (by simp)
      · intro q hq
        have hqm : q ≠ partPath od bn ex (m + 1) := hq m (by simp)
        simp only [Option.getD_some]
        rw [lookupFile_appendToFile_ne _ _ _ _ hqm, createFile,
          lookupFile_setFile_ne _ _ _ _ hqm]
        exact h5 q (fun j hj => hq j (by simp; omega))
    · have hts0 : ts.length ≠ 0 := fun h0 => hb (by rw [h0]; simp)
      have hwsne : (ts.map fun l => l ++ ['\n']) ≠ [] := by
        intro hnil
        rw [← hlenws] at hts0
        rw [hnil] at hts0
        exact hts0 rfl
      have hchne : chunksSpec P (ts.map fun l => l ++ ['\n']) ≠ [] := by
        rw [Ne, chunksSpec_eq_nil_iff]
        exact hwsne
      set m := (chunksSpec P (ts.map fun l => l ++ ['\n'])).length with hmdef
      have hm1 : 1 ≤ m := by
        rw [hmdef]
        rcases hch : chunksSpec P (ts.map fun l => l ++ ['\n']) with _ | _
        · exact absurd hch hchne
        · simp
      have hchunks : chunksSpec P ((ts.map fun l => l ++ ['\n']) ++ [t ++ ['\n']]) =
          appendLast (chunksSpec P (ts.map fun l => l ++ ['\n'])) (t ++ ['\n']) :=
        chunksSpec_append_of_mod_ne P hP _ _ (by rw [hlenws]; exact hb)
      have hlen' : (appendLast (chunksSpec P (ts.map fun l => l ++ ['\n'])) (t ++ ['\n'])).length
          = m := by
        rw [appendLast_length _ _ hchne]
      rw [hchunks, hlen']
      rw [if_neg hb, if_neg hb, if_neg hb, h3,
        if_neg (show ¬ m = 0 by omega)]
      refine ⟨by simp, by simp, by simp, ?_, ?_⟩
      · intro j c hc
        rcases Nat.lt_trichotomy (j + 1) m with hj | hj | hj
        · have hcj : (chunksSpec P (ts.map fun l => l ++ ['\n']))[j]? = some c := by
            rw [appendLast_getElem?_lt _ _ _ (by omega)] at hc
            exact hc
          have hne : partPath od bn ex (j + 1) ≠ partPath od bn ex m := by
            intro heq
            have hrw : m = m - 1 + 1 := by omega
            rw [hrw] at heq
            have := hinj j (m - 1) (by rw [hchunks, hlen']; omega)
              (by rw [hchunks, hlen']; omega) heq
            omega
          simp only [Option.getD_some]
          rw [lookupFile_appendToFile_ne _ _ _ _ hne]
          exact h4 j c hcj
        · have hjm : j = m - 1 := by omega
          subst hjm
          have hlast := appendLast_getElem?_last
            (chunksSpec P (ts.map fun l => l ++ ['\n'])) (t ++ ['\n']) hchne
          rw [← hmdef] at hlast
          rw [hlast] at hc
          have hc0 : ∃ c0, (chunksSpec P (ts.map fun l => l ++ ['\n']))[m - 1]? = some c0 := by
            refine ⟨_, List.getElem?_eq_getElem ?_⟩
            omega
          rcases hc0 with ⟨c0, hc0⟩
          have hgl : (chunksSpec P (ts.map fun l => l ++ ['\n'])).getLast? = some c0 := by
            rw [List.getLast?_eq_getElem?, ← hmdef]
            exact hc0
          rw [hgl] at hc
          have hceq : c = c0 ++ [t ++ ['\n']] := by
            simp at hc
            exact hc.symm
          subst hceq
          have hlook := h4 (m - 1) c0 hc0
          have hrw : m - 1 + 1 = m := by omega
          rw [hrw] at hlook
          rw [hrw]
          simp only [Option.getD_some]
          rw [lookupFile_appendToFile_self, hlook]
          simp
        · have : (appendLast (chunksSpec P (ts.map fun l => l ++ ['\n'])) (t ++ ['\n']))[j]? =
              none := by
            rw [List.getElem?_eq_none]
            rw [hlen']
            omega
          rw [this] at hc
          exact absurd hc (by simp)
      · intro q hq
        have hqm : q ≠ partPath od bn ex m := by
          have := hq (m - 1) (by omega)
          have hrw : m - 1 + 1 = m := by omega
          rw [hrw] at this
          exact this
        simp only [Option.getD_some]
        rw [lookupFile_appendToFile_ne _ _ _ _ hqm]
        exact h5 q (fun j hj => hq j (by omega))

/-- With no write failures the loop always reports success. -/
theorem writeLoop_nf_ok (P : Nat) (od bn ex : String) (ts : List (List Char)) :
    ∀ (lc fc : Nat) (cur : Option String) (fs : FS),
    (writeLoop (fun _ => false) P od bn ex ts lc fc cur fs).2.2.2 = .ok () := by
  induction ts with
  | nil =>
    intro lc fc cur fs
    rfl
  | cons t rest ih =>
    intro lc fc cur fs
    rw [writeLoop_cons_ok _ _ _ _ _ _ _ _ _ _ _ rfl]
    exact ih _ _ _ _

/-- Unfolding of `SplitFileByLinesW` past its validations and the open of the
source file. -/
theorem SplitFileByLinesW_open (wfail : Nat → Bool) (fs : FS)
    (filePath : String) (linesPerFile : Int) (outputDir processedDir : String)
    (content : List Char)
    (hP : 1 ≤ linesPerFile) (hfp : filePath ≠ "") (hod : outputDir ≠ "")
    (hpd : processedDir ≠ "") (hsrc : lookupFile fs filePath = some content) :
    SplitFileByLinesW wfail fs filePath linesPerFile outputDir processedDir =
      splitAfterOpen wfail linesPerFile.toNat filePath outputDir processedDir content
        (mkdirAll (mkdirAll fs outputDir) processedDir) := by
  rw [SplitFileByLinesW, if_neg (by omega), if_neg (by simp [hfp, hod, hpd])]
  have hlook : lookupFile (mkdirAll (mkdirAll fs outputDir) processedDir) filePath =
      some content := by
    rw [lookupFile_mkdirAll, lookupFile_mkdirAll]
    exact hsrc
  simp only [hlook]

/-- Unfolding of the post-open phase when every write succeeds and the scan
is error-free: the parts are written and the source is renamed into the
processed directory. -/
theorem splitAfterOpen_success (P : Nat) (filePath od pd : String)
    (content : List Char) (tokens : List (List Char)) (fs2 : FS)
    (hscan : scanTokens content = (tokens, false))
    (hfp : filePath ≠ "")
    (hsrc2 : lookupFile fs2 filePath = some content)
    (hfp2 : ∀ j, j < tokens.length →
      filePath ≠ partPath od (trimSuffix (pathBase filePath) (pathExt filePath))
        (pathExt filePath) (j + 1)) :
    splitAfterOpen (fun _ => false) P filePath od pd content fs2 =
      ⟨setFile
          (removeFile
            (writeLoop (fun _ => false) P od
              (trimSuffix (pathBase filePath) (pathExt filePath)) (pathExt filePath)
              tokens 0 1 none fs2).1 filePath)
          (pd ++ "/" ++ pathBase filePath) content,
        .ok ((writeLoop (fun _ => false) P od
            (trimSuffix (pathBase filePath) (pathExt filePath)) (pathExt filePath)
            tokens 0 1 none fs2).2.1 - 1)⟩ := by
  rw [splitAfterOpen]
  simp only [hscan, writeLoop_nf_ok, Bool.false_eq_true, if_false]
  have hlook : lookupFile
      (writeLoop (fun _ => false) P od
        (trimSuffix (pathBase filePath) (pathExt filePath)) (pathExt filePath)
        tokens 0 1 none fs2).1 filePath = some content := by
    rw [writeLoop_frame _ _ _ _ _ _ _ _ _ _ _
      (fun i h1 h2 => by
        have hrw : i - 1 + 1 = i := by omega
        rw [← hrw]
        exact hfp2 (i - 1) (by omega))
      (by simpa using hfp)]
    exact hsrc2
  rw [renameFile, hlook]

/-- Unfolding of the post-open phase when the loop reports a write failure. -/
theorem splitAfterOpen_loop_err (wfail : Nat → Bool) (P : Nat) (filePath od pd : String)
    (content : List Char) (tokens : List (List Char)) (fs2 : FS) (e : String)
    (hscanfst : (scanTokens content).1 = tokens)
    (herr : (writeLoop wfail P od
        (trimSuffix (pathBase filePath) (pathExt filePath)) (pathExt filePath)
        tokens 0 1 none fs2).2.2.2 = .error e) :
    splitAfterOpen wfail P filePath od pd content fs2 =
      ⟨(writeLoop wfail P od
          (trimSuffix (pathBase filePath) (pathExt filePath)) (pathExt filePath)
          tokens 0 1 none fs2).1, .error e⟩ := by
  rw [splitAfterOpen]
  simp only [hscanfst, herr]

/-- Unfolding of the post-open phase when the scan fails (`ErrTooLong`):
every write of the yielded prefix of lines succeeds, then the scanner error
surfaces. -/
theorem splitAfterOpen_scan_err (P : Nat) (filePath od pd : String)
    (content : List Char) (fs2 : FS)
    (herr : (scanTokens content).2 = true) :
    (splitAfterOpen (fun _ => false) P filePath od pd content fs2).result =
      .error "error reading file" := by
  rw [splitAfterOpen]
  simp only [writeLoop_nf_ok, herr, if_true]

/-- Unfolding of `SplitFileByLinesW` when the source file cannot be opened:
the output and processed directories have already been created. -/
theorem SplitFileByLinesW_open_none (wfail : Nat → Bool) (fs : FS)
    (filePath : String) (linesPerFile : Int) (outputDir processedDir : String)
    (hP : 1 ≤ linesPerFile) (hfp : filePath ≠ "") (hod : outputDir ≠ "")
    (hpd : processedDir ≠ "") (hnone : lookupFile fs filePath = none) :
    SplitFileByLinesW wfail fs filePath linesPerFile outputDir processedDir =
      ⟨mkdirAll (mkdirAll fs outputDir) processedDir,
        .error ("failed to open file " ++ filePath)⟩ := by
  rw [SplitFileByLinesW, if_neg (by omega), if_neg (by simp [hfp, hod, hpd])]
  have hlook : lookupFile (mkdirAll (mkdirAll fs outputDir) processedDir) filePath = none := by
    rw [lookupFile_mkdirAll, lookupFile_mkdirAll]
    exact hnone
  simp only [hlook]

/-! ### Lemmas about the scanner -/

theorem scanAux_append_no_nl (l : List Char) (hnl : '\n' ∉ l) :
    ∀ (seg rest : List Char), scanAux (l ++ rest) seg = scanAux rest (seg ++ l) := by
  induction l with
  | nil =>
    intro seg rest
    simp
  | cons c l' ih =>
    intro seg rest
    have hc : ¬ c = '\n' := fun h => hnl (by rw [h]; simp)
    rw [List.cons_append]
    show scanAux (c :: (l' ++ rest)) seg = _
    rw [scanAux, if_neg hc]
    rw [ih (fun h => hnl (by simp [h])) (seg ++ [c]) rest]
    rw [List.append_assoc]
    rfl

theorem scanAux_line (l t rest : List Char)
    (hnl : '\n' ∉ l) (hcr : l.getLast? ≠ some '\r') (hlen : l.length + 2 ≤ maxScanTokenSize)
    (ht : t = ['\n'] ∨ t = ['\r', '\n']) :
    scanAux (l ++ t ++ rest) [] =
      (l :: (scanAux rest []).1, (scanAux rest []).2) := by
  rcases ht with ht | ht
  · subst ht
    rw [List.append_assoc, scanAux_append_no_nl l hnl [] _, List.nil_append]
    show scanAux ('\n' :: rest) l = _
    rw [scanAux, if_pos rfl, if_neg (by omega)]
    rw [dropCR, if_neg hcr]
  · subst ht
    have h2 : l ++ ['\r', '\n'] ++ rest = (l ++ ['\r']) ++ ('\n' :: rest) := by simp
    rw [h2, scanAux_append_no_nl (l ++ ['\r']) (by simp; exact hnl) [] _, List.nil_append]
    show scanAux ('\n' :: rest) (l ++ ['\r']) = _
    rw [scanAux, if_pos rfl, if_neg (by simp; omega)]
    rw [dropCR, if_pos (List.getLast?_concat l), List.dropLast_concat]

/-- The byte content of a source whose lines are `pairs.map Prod.fst`,
each line followed by its own terminator `pr.2`. -/
def mkContent (pairs : List (List Char × List Char)) : List Char :=
  (pairs.map fun pr => pr.1 ++ pr.2).flatten

/-- A hypothesis bundle: every line is free of '\n', does not end in '\r',
stays under the scanner's token limit, and is terminated by LF or CRLF. -/
def WellFormedPairs (pairs : List (List Char × List Char)) : Prop :=
  ∀ pr ∈ pairs, '\n' ∉ pr.1 ∧ pr.1.getLast? ≠ some '\r' ∧
    pr.1.length + 2 ≤ maxScanTokenSize ∧ (pr.2 = ['\n'] ∨ pr.2 = ['\r', '\n'])

/-- Scanning a well-formed source yields exactly its logical lines, with no
error, whatever mix of LF and CRLF terminators the source uses. -/
theorem scanTokens_mkContent (pairs : List (List Char × List Char))
    (h : WellFormedPairs pairs) :
    scanTokens (mkContent pairs) = (pairs.map Prod.fst, false) := by
  induction pairs with
  | nil => rfl
  | cons pr rest ih =>
    rcases h pr (by simp) with ⟨hnl, hcr, hlen, ht⟩
    have hmk : mkContent (pr :: rest) = pr.1 ++ pr.2 ++ mkContent rest := by
      simp [mkContent]
    rw [scanTokens, hmk, scanAux_line pr.1 pr.2 (mkContent rest) hnl hcr hlen ht]
    have ih2 := ih (fun pr2 hpr2 => h pr2 (by simp [hpr2]))
    rw [scanTokens] at ih2
    rw [ih2]
    simp

theorem scanAux_err_of_long_seg (post : List Char) :
    ∀ seg, maxScanTokenSize ≤ seg.length → (scanAux post seg).2 = true := by
  induction post with
  | nil =>
    intro seg hseg
    have hne : ¬ seg = [] := by
      intro h
      rw [h] at hseg
      simp [maxScanTokenSize] at hseg
    rw [scanAux, if_neg hne, if_pos hseg]
  | cons c post' ih =>
    intro seg hseg
    by_cases hc : c = '\n'
    · subst hc
      rw [scanAux, if_pos rfl, if_pos hseg]
    · rw [scanAux, if_neg hc]
      exact ih (seg ++ [c]) (by simp; omega)

theorem scanAux_err_of_long_run (run : List Char)
    (hnl : '\n' ∉ run) (hlen : maxScanTokenSize ≤ run.length) :
    ∀ (pre : List Char) (seg post : List Char),
    (scanAux (pre ++ run ++ post) seg).2 = true := by
  intro pre
  induction pre with
  | nil =>
    intro seg post
    rw [List.nil_append, scanAux_append_no_nl run hnl seg post]
    exact scanAux_err_of_long_seg post (seg ++ run) (by simp; omega)
  | cons c pre' ih =>
    intro seg post
    by_cases hc : c = '\n'
    · subst hc
      rw [List.cons_append, List.cons_append, List.append_assoc]
      show (scanAux ('\n' :: (pre' ++ (run ++ post))) seg).2 = true
      rw [scanAux, if_pos rfl]
      by_cases hs : maxScanTokenSize ≤ seg.length
      · rw [if_pos hs]
      · rw [if_neg hs]
        have := ih [] post
        rw [List.append_assoc] at this
        exact this
    · rw [List.cons_append, List.cons_append, List.append_assoc]
      show (scanAux (c :: (pre' ++ (run ++ post))) seg).2 = true
      rw [scanAux, if_neg hc]
      have := ih (seg ++ [c]) post
      rw [List.append_assoc] at this
      exact this

/-- The scanner reports `ErrTooLong` whenever the source contains a
terminator-free run of at least `maxScanTokenSize` bytes. -/
theorem scanTokens_err (pre run post : List Char)
    (hnl : '\n' ∉ run) (hlen : maxScanTokenSize ≤ run.length) :
    (scanTokens (pre ++ run ++ post)).2 = true :=
  scanAux_err_of_long_run run hnl hlen pre [] post

theorem scanAux_tokens_no_nl :
    ∀ (cs seg : List Char), '\n' ∉ seg → ∀ tok ∈ (scanAux cs seg).1, '\n' ∉ tok := by
  intro cs
  induction cs with
  | nil =>
    intro seg hseg tok htok
    rw [scanAux] at htok
    by_cases h0 : seg = []
    · rw [if_pos h0] at htok
      simp at htok
    · rw [if_neg h0] at htok
      by_cases h1 : maxScanTokenSize ≤ seg.length
      · rw [if_pos h1] at htok
        simp at htok
      · rw [if_neg h1] at htok
        simp at htok
        subst htok
        rw [dropCR]
        by_cases h2 : seg.getLast? = some '\r'
        · rw [if_pos h2]
          intro hmem
          exact hseg (List.dropLast_subset seg hmem)
        · rw [if_neg h2]
          exact hseg
  | cons c cs' ih =>
    intro seg hseg tok htok
    by_cases hc : c = '\n'
    · subst hc
      rw [scanAux, if_pos rfl] at htok
      by_cases h1 : maxScanTokenSize ≤ seg.length
      · rw [if_pos h1] at htok
        simp at htok
      · rw [if_neg h1] at htok
        simp at htok
        rcases htok with htok | htok
        · subst htok
          rw [dropCR]
          by_cases h2 : seg.getLast? = some '\r'
          · rw [if_pos h2]
            intro hmem
            exact hseg (List.dropLast_subset seg hmem)
          · rw [if_neg h2]
            exact hseg
        · exact ih [] (by simp) tok htok
    · rw [scanAux, if_neg hc] at htok
      exact ih (seg ++ [c]) (by simp [hseg]; exact fun h => hc h.symm) tok htok

/-- Every token the scanner yields is free of '\n'. -/
theorem scanTokens_no_nl (content : List Char) :
    ∀ tok ∈ (scanTokens content).1, '\n' ∉ tok :=
  scanAux_tokens_no_nl content [] (by simp)

/-- The number of lines held by a file content: its count of '\n' bytes
(the splitter terminates every written line with exactly one '\n'). -/
def countNL (c : List Char) : Nat := c.count '\n'

theorem countNL_flatten (chunk : List (List Char))
    (h : ∀ w ∈ chunk, countNL w = 1) : countNL chunk.flatten = chunk.length := by
  induction chunk with
  | nil => rfl
  | cons w rest ih =>
    simp only [List.flatten_cons, countNL, List.count_append, List.length_cons]
    have h1 : w.count '\n' = 1 := h w (by simp)
    have h2 : rest.flatten.count '\n' = rest.length := ih (fun w2 hw2 => h w2 (by simp [hw2]))
    rw [h1, h2]
    omega

theorem countNL_line (tok : List Char) (h : '\n' ∉ tok) :
    countNL (tok ++ ['\n']) = 1 := by
  simp [countNL, List.count_append]
  rw [List.count_eq_zero_of_not_mem h]

/-! ### Claim theorems for the splitter -/

/-- The base name the splitter derives from the source path. -/
def splitBase (filePath : String) : String :=
  trimSuffix (pathBase filePath) (pathExt filePath)

/-- The path of part `i` as derived from the source path. -/
def splitPartPath (outputDir filePath : String) (i : Nat) : String :=
  partPath outputDir (splitBase filePath) (pathExt filePath) i

theorem splitPartPath_eq (od fp : String) (i : Nat) :
    splitPartPath od fp i =
      partPath od (trimSuffix (pathBase fp) (pathExt fp)) (pathExt fp) i := rfl

theorem ceilDiv_le_self (N P : Nat) (hP : 1 ≤ P) : (N + P - 1) / P ≤ N := by
  rw [Nat.div_le_iff_le_mul_add_pred (by omega)]
  have h2 : N ≤ P * N := Nat.le_mul_of_pos_left N (by omega)
  omega

theorem flatten_map_flatten (L : List (List (List Char))) :
    (L.map List.flatten).flatten = L.flatten.flatten := by
  induction L with
  | nil => rfl
  | cons c rest ih => simp [ih]

theorem lookup_after_rename (loopFs : FS) (filePath pp q : String) (content : List Char)
    (hq1 : q ≠ filePath) (hq2 : q ≠ pp) :
    lookupFile (setFile (removeFile loopFs filePath) pp content) q = lookupFile loopFs q := by
  rw [lookupFile_setFile_ne _ _ _ _ hq2, lookupFile_removeFile_ne _ _ _ hq1]

/-- C2: for every source with `N` lines and every `linesPerPart > 0`,
`SplitFileByLines` creates exactly `ceil(N / P)` part files (zero when
`N = 0`); every part but the last holds exactly `P` lines, and the last holds
`N mod P` lines, or exactly `P` when `P` divides `N`. -/
theorem C2_part_count_and_sizes
    (fs : FS) (filePath outputDir processedDir : String) (linesPerFile : Int)
    (content : List Char) (tokens : List (List Char))
    (hP : 1 ≤ linesPerFile)
    (hfp : filePath ≠ "") (hod : outputDir ≠ "") (hpd : processedDir ≠ "")
    (hsrc : lookupFile fs filePath = some content)
    (hscan : scanTokens content = (tokens, false))
    (hinj : ∀ j, j < tokens.length → ∀ j', j' < tokens.length →
      splitPartPath outputDir filePath (j + 1) = splitPartPath outputDir filePath (j' + 1) →
      j = j')
    (hfp2 : ∀ j, j < tokens.length → splitPartPath outputDir filePath (j + 1) ≠ filePath)
    (hpp2 : ∀ j, j < tokens.length →
      splitPartPath outputDir filePath (j + 1) ≠ processedDir ++ "/" ++ pathBase filePath) :
    (SplitFileByLines fs filePath linesPerFile outputDir processedDir).result =
      .ok ((tokens.length + linesPerFile.toNat - 1) / linesPerFile.toNat) ∧
    (tokens.length = 0 →
      (tokens.length + linesPerFile.toNat - 1) / linesPerFile.toNat = 0) ∧
    (∀ j, j < (tokens.length + linesPerFile.toNat - 1) / linesPerFile.toNat →
      ∃ c, lookupFile (SplitFileByLines fs filePath linesPerFile outputDir processedDir).fs
          (splitPartPath outputDir filePath (j + 1)) = some c ∧
        countNL c =
          (if j + 1 = (tokens.length + linesPerFile.toNat - 1) / linesPerFile.toNat then
            (if tokens.length % linesPerFile.toNat = 0 then linesPerFile.toNat
             else tokens.length % linesPerFile.toNat)
          else linesPerFile.toNat)) := by
  have hP0 : 0 < linesPerFile.toNat := by omega
  have hws : (tokens.map fun l => l ++ ['\n']).length = tokens.length := by simp
  have hm : (chunksSpec linesPerFile.toNat (tokens.map fun l => l ++ ['\n'])).length =
      (tokens.length + linesPerFile.toNat - 1) / linesPerFile.toNat := by
    rw [chunksSpec_length _ hP0, hws]
  have hmN : (chunksSpec linesPerFile.toNat (tokens.map fun l => l ++ ['\n'])).length ≤
      tokens.length := by
    rw [hm]
    exact ceilDiv_le_self _ _ hP0
  have hsrc2 : lookupFile (mkdirAll (mkdirAll fs outputDir) processedDir) filePath =
      some content := by
    rw [lookupFile_mkdirAll, lookupFile_mkdirAll]
    exact hsrc
  obtain ⟨r1, r2, r3, r4, r5⟩ := writeLoop_run linesPerFile.toNat hP0 outputDir
    (trimSuffix (pathBase filePath) (pathExt filePath)) (pathExt filePath) tokens
    (mkdirAll (mkdirAll fs outputDir) processedDir)
    (fun j j' hj hj' heq => hinj j (by omega) j' (by omega) heq)
  have hout : SplitFileByLines fs filePath linesPerFile outputDir processedDir =
      ⟨setFile
          (removeFile
            (writeLoop (fun _ => false) linesPerFile.toNat outputDir
              (trimSuffix (pathBase filePath) (pathExt filePath)) (pathExt filePath)
              tokens 0 1 none
              (mkdirAll (mkdirAll fs outputDir) processedDir)).1 filePath)
          (processedDir ++ "/" ++ pathBase filePath) content,
        .ok ((writeLoop (fun _ => false) linesPerFile.toNat outputDir
            (trimSuffix (pathBase filePath) (pathExt filePath)) (pathExt filePath)
            tokens 0 1 none
            (mkdirAll (mkdirAll fs outputDir) processedDir)).2.1 - 1)⟩ := by
    rw [SplitFileByLines,
      SplitFileByLinesW_open _ _ _ _ _ _ content hP hfp hod hpd hsrc,
      splitAfterOpen_success _ _ _ _ _ tokens _ hscan hfp hsrc2
        (fun j hj => (hfp2 j hj).symm)]
  refine ⟨?_, ?_, ?_⟩
  · rw [hout]
    simp only [r2, hm]
    simp
  · intro h0
    rw [h0]
    simp
    exact Nat.div_eq_of_lt (by omega)
  · intro j hj
    have hjc : j < (chunksSpec linesPerFile.toNat (tokens.map fun l => l ++ ['\n'])).length := by
      rw [hm]
      exact hj
    have hget : (chunksSpec linesPerFile.toNat (tokens.map fun l => l ++ ['\n']))[j]? =
        some ((chunksSpec linesPerFile.toNat (tokens.map fun l => l ++ ['\n'])).get ⟨j, hjc⟩) := by
      rw [List.getElem?_eq_getElem hjc]
      rfl
    have hlook := r4 j _ hget
    have hjN : j < tokens.length := lt_of_lt_of_le hjc hmN
    refine ⟨((chunksSpec linesPerFile.toNat (tokens.map fun l => l ++ ['\n'])).get
      ⟨j, hjc⟩).flatten, ?_, ?_⟩
    · rw [hout]
      show lookupFile (setFile (removeFile _ filePath) _ content)
        (splitPartPath outputDir filePath (j + 1)) = _
      rw [lookup_after_rename _ _ _ _ _ (hfp2 j hjN) (hpp2 j hjN)]
      exact hlook
    · have hcount : ∀ w ∈ (chunksSpec linesPerFile.toNat
          (tokens.map fun l => l ++ ['\n'])).get ⟨j, hjc⟩, countNL w = 1 := by
        intro w hw
        have hwf : w ∈ (chunksSpec linesPerFile.toNat
            (tokens.map fun l => l ++ ['\n'])).flatten := by
          rw [List.mem_flatten]
          exact ⟨_, List.get_mem _ _ _, hw⟩
        rw [chunksSpec_flatten] at hwf
        rcases List.mem_map.mp hwf with ⟨tok, htok, hweq⟩
        subst hweq
        apply countNL_line
        have := scanTokens_no_nl content tok
        rw [hscan] at this
        exact this htok
      rw [countNL_flatten _ hcount]
      by_cases hlast : j + 1 = (tokens.length + linesPerFile.toNat - 1) / linesPerFile.toNat
      · rw [if_pos hlast]
        have hchne : chunksSpec linesPerFile.toNat (tokens.map fun l => l ++ ['\n']) ≠ [] := by
          intro h0
          rw [h0] at hjc
          simp at hjc
        have htne : tokens.map (fun l => l ++ ['\n']) ≠ [] := fun hnil =>
          hchne (by rw [hnil, chunksSpec_nil])
        rcases chunksSpec_getLast?_length linesPerFile.toNat hP0
          (tokens.map fun l => l ++ ['\n']) htne with ⟨last, hlgl, hllen⟩
        rw [List.getLast?_eq_getElem?] at hlgl
        have hmj : (chunksSpec linesPerFile.toNat (tokens.map fun l => l ++ ['\n'])).length =
            j + 1 := by
          rw [hm, ← hlast]
        have hidx : (chunksSpec linesPerFile.toNat (tokens.map fun l => l ++ ['\n'])).length - 1
            = j := by omega
        rw [hidx, List.getElem?_eq_getElem hjc] at hlgl
        have hleq : (chunksSpec linesPerFile.toNat
            (tokens.map fun l => l ++ ['\n'])).get ⟨j, hjc⟩ = last := by
          have := Option.some_injective _ hlgl
          exact this
        rw [hleq, hllen, hws]
      · rw [if_neg hlast]
        apply chunksSpec_dropLast_length linesPerFile.toNat hP0
          (tokens.map fun l => l ++ ['\n'])
        have hne2 : j + 1 ≠ (chunksSpec linesPerFile.toNat
            (tokens.map fun l => l ++ ['\n'])).length := by
          rw [hm]
          exact hlast
        have hjd : j < (chunksSpec linesPerFile.toNat
            (tokens.map fun l => l ++ ['\n'])).dropLast.length := by
          simp [List.length_dropLast]
          omega
        have hgd : (chunksSpec linesPerFile.toNat
            (tokens.map fun l => l ++ ['\n'])).dropLast.get ⟨j, hjd⟩ =
            (chunksSpec linesPerFile.toNat (tokens.map fun l => l ++ ['\n'])).get ⟨j, hjc⟩ := by
          simp [List.getElem_dropLast]
        rw [← hgd]
        exact List.get_mem _ _ _

/-- C1: for every source with `N` lines and every `linesPerPart > 0`,
concatenating the part files produced by `SplitFileByLines` in index order
reproduces exactly the `N` original lines, each written with a single
trailing '\n', regardless of the source's original line-terminator style
(any per-line mix of LF and CRLF). -/
theorem C1_concat_roundtrip
    (fs : FS) (filePath outputDir processedDir : String) (linesPerFile : Int)
    (pairs : List (List Char × List Char))
    (hP : 1 ≤ linesPerFile)
    (hfp : filePath ≠ "") (hod : outputDir ≠ "") (hpd : processedDir ≠ "")
    (hwf : WellFormedPairs pairs)
    (hsrc : lookupFile fs filePath = some (mkContent pairs))
    (hinj : ∀ j, j < pairs.length → ∀ j', j' < pairs.length →
      splitPartPath outputDir filePath (j + 1) = splitPartPath outputDir filePath (j' + 1) →
      j = j')
    (hfp2 : ∀ j, j < pairs.length → splitPartPath outputDir filePath (j + 1) ≠ filePath)
    (hpp2 : ∀ j, j < pairs.length →
      splitPartPath outputDir filePath (j + 1) ≠ processedDir ++ "/" ++ pathBase filePath) :
    (SplitFileByLines fs filePath linesPerFile outputDir processedDir).result =
      .ok ((pairs.length + linesPerFile.toNat - 1) / linesPerFile.toNat) ∧
    ((List.range ((pairs.length + linesPerFile.toNat - 1) / linesPerFile.toNat)).map fun j =>
        (lookupFile (SplitFileByLines fs filePath linesPerFile outputDir processedDir).fs
          (splitPartPath outputDir filePath (j + 1))).getD []).flatten =
      ((pairs.map Prod.fst).map fun l => l ++ ['\n']).flatten := by
  have hP0 : 0 < linesPerFile.toNat := by omega
  have hscan : scanTokens (mkContent pairs) = (pairs.map Prod.fst, false) :=
    scanTokens_mkContent pairs hwf
  have hlen : (pairs.map Prod.fst).length = pairs.length := by simp
  have hws : ((pairs.map Prod.fst).map fun l => l ++ ['\n']).length = pairs.length := by simp
  have hm : (chunksSpec linesPerFile.toNat
      ((pairs.map Prod.fst).map fun l => l ++ ['\n'])).length =
      (pairs.length + linesPerFile.toNat - 1) / linesPerFile.toNat := by
    rw [chunksSpec_length _ hP0, hws]
  have hmN : (chunksSpec linesPerFile.toNat
      ((pairs.map Prod.fst).map fun l => l ++ ['\n'])).length ≤ pairs.length := by
    rw [hm]
    exact ceilDiv_le_self _ _ hP0
  have hsrc2 : lookupFile (mkdirAll (mkdirAll fs outputDir) processedDir) filePath =
      some (mkContent pairs) := by
    rw [lookupFile_mkdirAll, lookupFile_mkdirAll]
    exact hsrc
  obtain ⟨r1, r2, r3, r4, r5⟩ := writeLoop_run linesPerFile.toNat hP0 outputDir
    (trimSuffix (pathBase filePath) (pathExt filePath)) (pathExt filePath)
    (pairs.map Prod.fst) (mkdirAll (mkdirAll fs outputDir) processedDir)
    (fun j j' hj hj' heq => hinj j (by omega) j' (by omega) heq)
  have hout : SplitFileByLines fs filePath linesPerFile outputDir processedDir =
      ⟨setFile
          (removeFile
            (writeLoop (fun _ => false) linesPerFile.toNat outputDir
              (trimSuffix (pathBase filePath) (pathExt filePath)) (pathExt filePath)
              (pairs.map Prod.fst) 0 1 none
              (mkdirAll (mkdirAll fs outputDir) processedDir)).1 filePath)
          (processedDir ++ "/" ++ pathBase filePath) (mkContent pairs),
        .ok ((writeLoop (fun _ => false) linesPerFile.toNat outputDir
            (trimSuffix (pathBase filePath) (pathExt filePath)) (pathExt filePath)
            (pairs.map Prod.fst) 0 1 none
            (mkdirAll (mkdirAll fs outputDir) processedDir)).2.1 - 1)⟩ := by
    rw [SplitFileByLines,
      SplitFileByLinesW_open _ _ _ _ _ _ (mkContent pairs) hP hfp hod hpd hsrc,
      splitAfterOpen_success _ _ _ _ _ (pairs.map Prod.fst) _ hscan hfp hsrc2
        (fun j hj => (hfp2 j (by omega)).symm)]
  constructor
  · rw [hout]
    simp only [r2, hm]
    simp
  · have hlist : (List.range ((pairs.length + linesPerFile.toNat - 1) /
        linesPerFile.toNat)).map (fun j =>
          (lookupFile (SplitFileByLines fs filePath linesPerFile outputDir processedDir).fs
            (splitPartPath outputDir filePath (j + 1))).getD []) =
        (chunksSpec linesPerFile.toNat
          ((pairs.map Prod.fst).map fun l => l ++ ['\n'])).map List.flatten := by
      apply List.ext_getElem
      · rw [List.length_map, List.length_range, List.length_map, hm]
      · intro i h1 h2
        simp only [List.getElem_map, List.getElem_range]
        have hic : i < (chunksSpec linesPerFile.toNat
            ((pairs.map Prod.fst).map fun l => l ++ ['\n'])).length := by
          simpa using h2
        have hiN : i < pairs.length := lt_of_lt_of_le hic hmN
        have hget : (chunksSpec linesPerFile.toNat
            ((pairs.map Prod.fst).map fun l => l ++ ['\n']))[i]? =
            some ((chunksSpec linesPerFile.toNat
              ((pairs.map Prod.fst).map fun l => l ++ ['\n'])).get ⟨i, hic⟩) := by
          rw [List.getElem?_eq_getElem hic]
          rfl
        have hlook := r4 i _ hget
        rw [hout]
        show (lookupFile (setFile (removeFile _ filePath) _ (mkContent pairs))
          (splitPartPath outputDir filePath (i + 1))).getD [] = _
        rw [lookup_after_rename _ _ _ _ _ (hfp2 i hiN) (hpp2 i hiN), splitPartPath_eq, hlook]
        simp
    rw [hlist, flatten_map_flatten, chunksSpec_flatten]

/-- C7: after a successful split, the source is renamed into `processedDir`
under its original base name and no longer exists at the original path; a
second call with the same source path fails with an `IOError` (the open of
the source fails), and the part files written by the first call remain
untouched. -/
theorem C7_source_relocated
    (fs : FS) (filePath outputDir processedDir : String) (linesPerFile : Int)
    (content : List Char) (tokens : List (List Char))
    (hP : 1 ≤ linesPerFile)
    (hfp : filePath ≠ "") (hod : outputDir ≠ "") (hpd : processedDir ≠ "")
    (hsrc : lookupFile fs filePath = some content)
    (hscan : scanTokens content = (tokens, false))
    (hppne : processedDir ++ "/" ++ pathBase filePath ≠ filePath)
    (hfp2 : ∀ j, j < tokens.length → splitPartPath outputDir filePath (j + 1) ≠ filePath) :
    (∃ m, (SplitFileByLines fs filePath linesPerFile outputDir processedDir).result = .ok m) ∧
    lookupFile (SplitFileByLines fs filePath linesPerFile outputDir processedDir).fs
      filePath = none ∧
    lookupFile (SplitFileByLines fs filePath linesPerFile outputDir processedDir).fs
      (processedDir ++ "/" ++ pathBase filePath) = some content ∧
    (SplitFileByLines (SplitFileByLines fs filePath linesPerFile outputDir processedDir).fs
        filePath linesPerFile outputDir processedDir).result =
      .error ("failed to open file " ++ filePath) ∧
    (SplitFileByLines (SplitFileByLines fs filePath linesPerFile outputDir processedDir).fs
        filePath linesPerFile outputDir processedDir).fs.files =
      (SplitFileByLines fs filePath linesPerFile outputDir processedDir).fs.files := by
  have hsrc2 : lookupFile (mkdirAll (mkdirAll fs outputDir) processedDir) filePath =
      some content := by
    rw [lookupFile_mkdirAll, lookupFile_mkdirAll]
    exact hsrc
  have hout : SplitFileByLines fs filePath linesPerFile outputDir processedDir =
      ⟨setFile
          (removeFile
            (writeLoop (fun _ => false) linesPerFile.toNat outputDir
              (trimSuffix (pathBase filePath) (pathExt filePath)) (pathExt filePath)
              tokens 0 1 none
              (mkdirAll (mkdirAll fs outputDir) processedDir)).1 filePath)
          (processedDir ++ "/" ++ pathBase filePath) content,
        .ok ((writeLoop (fun _ => false) linesPerFile.toNat outputDir
            (trimSuffix (pathBase filePath) (pathExt filePath)) (pathExt filePath)
            tokens 0 1 none
            (mkdirAll (mkdirAll fs outputDir) processedDir)).2.1 - 1)⟩ := by
    rw [SplitFileByLines,
      SplitFileByLinesW_open _ _ _ _ _ _ content hP hfp hod hpd hsrc,
      splitAfterOpen_success _ _ _ _ _ tokens _ hscan hfp hsrc2
        (fun j hj => (hfp2 j hj).symm)]
  have hnone : lookupFile
      (SplitFileByLines fs filePath linesPerFile outputDir processedDir).fs filePath = none := by
    rw [hout]
    show lookupFile (setFile _ _ _) filePath = none
    rw [lookupFile_setFile_ne _ _ _ _ (Ne.symm hppne)]
    exact lookupFile_removeFile_self _ _
  refine ⟨⟨_, by rw [hout]⟩, hnone, ?_, ?_, ?_⟩
  · rw [hout]
    exact lookupFile_setFile_self _ _ _
  · rw [SplitFileByLines,
      SplitFileByLinesW_open_none _ _ _ _ _ _ hP hfp hod hpd hnone]
  · rw [SplitFileByLines,
      SplitFileByLinesW_open_none _ _ _ _ _ _ hP hfp hod hpd hnone]
    show (mkdirAll (mkdirAll _ outputDir) processedDir).files = _
    rw [mkdirAll_files, mkdirAll_files]

/-- C8 (amended): with `linesPerPart ≤ 0` or an empty path argument the call
fails before touching the filesystem; with an unopenable source it fails
having written no file, but the output and processed directories have
already been created by the preceding `MkdirAll` calls. -/
theorem C8_amended_upfront_failures (wfail : Nat → Bool) (fs : FS)
    (filePath outputDir processedDir : String) (linesPerFile : Int) :
    (linesPerFile ≤ 0 →
      SplitFileByLinesW wfail fs filePath linesPerFile outputDir processedDir =
        ⟨fs, .error "lines per file must be positive"⟩) ∧
    (1 ≤ linesPerFile → (filePath = "" ∨ outputDir = "" ∨ processedDir = "") →
      SplitFileByLinesW wfail fs filePath linesPerFile outputDir processedDir =
        ⟨fs, .error "filePath, outputDir, and processedDir must not be empty"⟩) ∧
    (1 ≤ linesPerFile → filePath ≠ "" → outputDir ≠ "" → processedDir ≠ "" →
      lookupFile fs filePath = none →
      SplitFileByLinesW wfail fs filePath linesPerFile outputDir processedDir =
        ⟨mkdirAll (mkdirAll fs outputDir) processedDir,
          .error ("failed to open file " ++ filePath)⟩ ∧
      (SplitFileByLinesW wfail fs filePath linesPerFile outputDir processedDir).fs.files =
        fs.files) := by
  refine ⟨?_, ?_, ?_⟩
  · intro h0
    rw [SplitFileByLinesW, if_pos (by omega)]
  · intro hP hempty
    rw [SplitFileByLinesW, if_neg (by omega), if_pos hempty]
  · intro hP hfp hod hpd hnone
    have h := SplitFileByLinesW_open_none wfail fs filePath linesPerFile outputDir
      processedDir hP hfp hod hpd hnone
    refine ⟨h, ?_⟩
    rw [h]
    show (mkdirAll (mkdirAll _ outputDir) processedDir).files = _
    rw [mkdirAll_files, mkdirAll_files]

/-- C8 (counterexample to the claim as stated): calling with a missing
source file on an empty filesystem fails with the open error, yet the output
and processed directories have been created — the filesystem is not left
unchanged on this upfront-failure path. -/
theorem C8_counterexample :
    (SplitFileByLines ⟨[], []⟩ "in/a.csv" 1 "out" "done").result =
      .error "failed to open file in/a.csv" ∧
    (SplitFileByLines ⟨[], []⟩ "in/a.csv" 1 "out" "done").fs.dirs = ["out", "done"] ∧
    (⟨[], []⟩ : FS).dirs = [] := by
  refine ⟨rfl, rfl, rfl⟩

/-- C9: a failed write of any line mid-stream makes the call fail with an
`IOError` (never success), while nothing already on disk is deleted and
every part file the call had created is still in place. -/
theorem C9_write_failure_aborts
    (wfail : Nat → Bool) (fs : FS) (filePath outputDir processedDir : String)
    (linesPerFile : Int) (content : List Char) (tokens : List (List Char)) (k : Nat)
    (hP : 1 ≤ linesPerFile)
    (hfp : filePath ≠ "") (hod : outputDir ≠ "") (hpd : processedDir ≠ "")
    (hsrc : lookupFile fs filePath = some content)
    (hscan : scanTokens content = (tokens, false))
    (hk : k < tokens.length)
    (hw : ∀ j, wfail j = decide (j = k)) :
    (SplitFileByLinesW wfail fs filePath linesPerFile outputDir processedDir).result =
      .error "failed to write to output file" ∧
    (∀ q c, lookupFile fs q = some c →
      ∃ c', lookupFile
        (SplitFileByLinesW wfail fs filePath linesPerFile outputDir processedDir).fs q =
        some c') ∧
    (∀ i, 1 ≤ i → i * linesPerFile.toNat ≤ k →
      ∃ c, lookupFile
        (SplitFileByLinesW wfail fs filePath linesPerFile outputDir processedDir).fs
        (splitPartPath outputDir filePath i) = some c) := by
  have herr := writeLoop_fail_result wfail linesPerFile.toNat outputDir
    (trimSuffix (pathBase filePath) (pathExt filePath)) (pathExt filePath) k hw tokens
    0 1 none (mkdirAll (mkdirAll fs outputDir) processedDir) (by omega) (by omega)
  have hout : SplitFileByLinesW wfail fs filePath linesPerFile outputDir processedDir =
      ⟨(writeLoop wfail linesPerFile.toNat outputDir
          (trimSuffix (pathBase filePath) (pathExt filePath)) (pathExt filePath)
          tokens 0 1 none (mkdirAll (mkdirAll fs outputDir) processedDir)).1,
        .error "failed to write to output file"⟩ := by
    rw [SplitFileByLinesW_open _ _ _ _ _ _ content hP hfp hod hpd hsrc,
      splitAfterOpen_loop_err _ _ _ _ _ _ tokens _ _ (by rw [hscan]) herr]
  refine ⟨by rw [hout], ?_, ?_⟩
  · intro q c hc
    rw [hout]
    exact writeLoop_preserves _ _ _ _ _ _ _ _ _ _ q c
      (by rw [lookupFile_mkdirAll, lookupFile_mkdirAll]; exact hc)
  · intro i hi hik
    rw [hout, splitPartPath_eq]
    exact writeLoop_fail_parts wfail linesPerFile.toNat (by omega) _ _ _ k hw tokens
      0 1 none _ (by omega) (by omega) (by omega) (by simp)
      (fun i' h1 h2 => absurd h2 (by omega)) i hi hik

/-- C10: `SplitFileByLines` reads the source with a `bufio.Scanner` at the
default maximum token size, so any source containing a line longer than
64 KiB makes the call fail with the `IOError` "error reading file" even
though every stated precondition holds. -/
theorem C10_long_line_fails
    (fs : FS) (filePath outputDir processedDir : String) (linesPerFile : Int)
    (pre run post : List Char)
    (hP : 1 ≤ linesPerFile)
    (hfp : filePath ≠ "") (hod : outputDir ≠ "") (hpd : processedDir ≠ "")
    (hsrc : lookupFile fs filePath = some (pre ++ run ++ post))
    (hnl : '\n' ∉ run) (hlen : maxScanTokenSize < run.length) :
    (SplitFileByLines fs filePath linesPerFile outputDir processedDir).result =
      .error "error reading file" := by
  rw [SplitFileByLines,
    SplitFileByLinesW_open _ _ _ _ _ _ (pre ++ run ++ post) hP hfp hod hpd hsrc]
  exact splitAfterOpen_scan_err _ _ _ _ _ _
    (scanTokens_err pre run post hnl (Nat.le_of_lt hlen))

/-! ### Lemmas about the housekeeper -/

theorem removeLoop_eq (dir : String) (rmFail : String → Bool) (es : List DirEntry) :
    removeLoop dir rmFail es =
      (es.map fun e => dir ++ "/" ++ e.name).filter fun p => !rmFail p := by
  induction es with
  | nil => rfl
  | cons e es ih =>
    rw [removeLoop]
    by_cases hf : rmFail (dir ++ "/" ++ e.name) = true
    · simp only [hf, if_true, List.map_cons, List.filter_cons, Bool.not_true]
      rw [ih]
      simp
    · simp only [hf, if_false, List.map_cons, List.filter_cons]
      rw [Bool.not_eq_true] at hf
      simp only [hf, Bool.not_false]
      rw [ih]
      simp

mutual
theorem walkNode_eq (recFlag : Bool) (cutoff : Int) (rmFail : String → Bool)
    (rootDir : String) : ∀ (path : String) (t : FSTree),
    walkNode recFlag cutoff rmFail rootDir path t =
      ((consideredNode recFlag rootDir path t).filter
        fun e => decide (e.2 < cutoff) && !rmFail e.1).map Prod.fst
  | path, .file n mt => by
    rw [walkNode, consideredNode]
    by_cases hmt : mt < cutoff
    · rw [if_pos hmt]
      by_cases hf : rmFail path = true
      · simp [hf, hmt]
      · rw [Bool.not_eq_true] at hf
        simp [hf, hmt]
    · rw [if_neg hmt]
      simp [hmt]
  | path, .dir n children => by
    rw [walkNode, consideredNode]
    by_cases hskip : ¬ recFlag ∧ path ≠ rootDir
    · rw [if_pos hskip, if_pos hskip]
      rfl
    · rw [if_neg hskip, if_neg hskip]
      exact walkChildren_eq recFlag cutoff rmFail rootDir path children

theorem walkChildren_eq (recFlag : Bool) (cutoff : Int) (rmFail : String → Bool)
    (rootDir : String) : ∀ (path : String) (cs : List FSTree),
    walkChildren recFlag cutoff rmFail rootDir path cs =
      ((consideredChildren recFlag rootDir path cs).filter
        fun e => decide (e.2 < cutoff) && !rmFail e.1).map Prod.fst
  | path, [] => by
    rw [walkChildren, consideredChildren]
    rfl
  | path, c :: cs => by
    rw [walkChildren, consideredChildren, List.filter_append, List.map_append,
      walkNode_eq recFlag cutoff rmFail rootDir (path ++ "/" ++ c.name) c,
      walkChildren_eq recFlag cutoff rmFail rootDir path cs]
end

mutual
theorem consideredNode_sub_filePaths (recFlag : Bool) (rootDir : String) :
    ∀ (path : String) (t : FSTree) (e : String × Int),
    e ∈ consideredNode recFlag rootDir path t → e.1 ∈ filePathsNode path t
  | path, .file n mt, e => by
    rw [consideredNode, filePathsNode]
    intro h
    simp at h
    simp [h]
  | path, .dir n children, e => by
    rw [consideredNode, filePathsNode]
    by_cases hskip : ¬ recFlag ∧ path ≠ rootDir
    · rw [if_pos hskip]
      intro h
      simp at h
    · rw [if_neg hskip]
      exact consideredChildren_sub_filePaths recFlag rootDir path children e

theorem consideredChildren_sub_filePaths (recFlag : Bool) (rootDir : String) :
    ∀ (path : String) (cs : List FSTree) (e : String × Int),
    e ∈ consideredChildren recFlag rootDir path cs → e.1 ∈ filePathsChildren path cs
  | path, [], e => by
    rw [consideredChildren]
    intro h
    simp at h
  | path, c :: cs, e => by
    rw [consideredChildren, filePathsChildren]
    intro h
    rcases List.mem_append.mp h with h1 | h1
    · exact List.mem_append.mpr
        (Or.inl (consideredNode_sub_filePaths recFlag rootDir _ c e h1))
    · exact List.mem_append.mpr
        (Or.inr (consideredChildren_sub_filePaths recFlag rootDir path cs e h1))
end

/-- A path strictly extends the directory it lives in. -/
theorem joinPath_ne (d s : String) : d ++ "/" ++ s ≠ d := by
  intro h
  have := congrArg String.length h
  rw [String.length_append, String.length_append] at this
  have h1 : ("/" : String).length = 1 := rfl
  omega

/-- C3: with `maxFiles ≥ 0` and all deletions succeeding,
`HousekeepFilesByCount` leaves exactly `min(originalCount, maxFiles)` entries
and retains only entries at least as recently modified as every removed one;
when the entry count is at most `maxFiles` nothing is removed and the call
succeeds. -/
theorem C3_count_retention
    (rmFail : String → Bool) (entries : List DirEntry) (dir : String) (maxFiles : Int)
    (hmf : 0 ≤ maxFiles) (hrm : ∀ p, rmFail p = false) :
    HousekeepFilesByCount rmFail true entries dir maxFiles =
      .ok (((entries.mergeSort entryLe).take (entries.length - maxFiles.toNat)).map
        fun e => dir ++ "/" ++ e.name) ∧
    ((entries.mergeSort entryLe).take (entries.length - maxFiles.toNat) ++
      (entries.mergeSort entryLe).drop (entries.length - maxFiles.toNat)).Perm entries ∧
    ((entries.mergeSort entryLe).drop (entries.length - maxFiles.toNat)).length =
      min entries.length maxFiles.toNat ∧
    (∀ a ∈ (entries.mergeSort entryLe).take (entries.length - maxFiles.toNat),
      ∀ b ∈ (entries.mergeSort entryLe).drop (entries.length - maxFiles.toNat),
        a.modTime ≤ b.modTime) ∧
    ((entries.length : Int) ≤ maxFiles →
      (entries.mergeSort entryLe).take (entries.length - maxFiles.toNat) = []) := by
  have hsortlen : (entries.mergeSort entryLe).length = entries.length :=
    (List.mergeSort_perm entries entryLe).length_eq
  have hsorted : List.Sorted (fun a b => entryLe a b = true) (entries.mergeSort entryLe) :=
    @List.sorted_mergeSort DirEntry entryLe
      (fun a b c h1 h2 => by simp [entryLe] at h1 h2 ⊢; omega)
      (fun a b => by simp [entryLe]; omega)
      entries
  refine ⟨?_, ?_, ?_, ?_, ?_⟩
  · rw [HousekeepFilesByCount, if_neg (by omega), if_neg (by simp)]
    by_cases hle : (entries.length : Int) ≤ maxFiles
    · rw [if_pos hle]
      have hk : entries.length - maxFiles.toNat = 0 := by omega
      rw [hk, List.take_zero]
      rfl
    · rw [if_neg hle]
      show Except.ok (removeLoop dir rmFail
        ((entries.mergeSort entryLe).take (entries.length - maxFiles.toNat))) = _
      rw [removeLoop_eq]
      congr 1
      rw [List.filter_eq_self]
      intro p _
      rw [hrm p]
      rfl
  · rw [List.take_append_drop]
    exact List.mergeSort_perm entries entryLe
  · rw [List.length_drop, hsortlen]
    omega
  · intro a ha b hb
    have := hsorted.rel_of_mem_take_of_mem_drop ha hb
    simp [entryLe] at this
    exact this
  · intro hle
    have hk : entries.length - maxFiles.toNat = 0 := by omega
    rw [hk, List.take_zero]

/-- C4: with `maxAgeDays ≥ 0` and all deletions succeeding,
`HousekeepFilesByAge` deletes a considered regular file exactly when its
modification time is strictly before `now − maxAgeDays·24h`: every removed
path corresponds to a considered file older than the cutoff, and every
considered file that remains is at least as new as the cutoff. -/
theorem C4_age_cutoff
    (root : FSTree) (dir : String) (maxAgeDays now : Int) (recursive : List Bool)
    (hma : 0 ≤ maxAgeDays) :
    HousekeepFilesByAge (fun _ => false) true root dir maxAgeDays now recursive =
      .ok (walkNode (recursive.headD false) (now - maxAgeDays * 24) (fun _ => false)
        dir dir root) ∧
    (∀ p ∈ walkNode (recursive.headD false) (now - maxAgeDays * 24) (fun _ => false)
        dir dir root,
      ∃ mt, (p, mt) ∈ consideredNode (recursive.headD false) dir dir root ∧
        mt < now - maxAgeDays * 24) ∧
    (∀ p mt, (p, mt) ∈ consideredNode (recursive.headD false) dir dir root →
      p ∉ walkNode (recursive.headD false) (now - maxAgeDays * 24) (fun _ => false)
        dir dir root →
      now - maxAgeDays * 24 ≤ mt) := by
  refine ⟨?_, ?_, ?_⟩
  · rw [HousekeepFilesByAge, if_neg (by omega), if_neg (by simp)]
  · intro p hp
    rw [walkNode_eq] at hp
    rcases List.mem_map.mp hp with ⟨e, he, hfst⟩
    have hmem := List.mem_of_mem_filter he
    have hpred := List.of_mem_filter he
    simp at hpred
    exact ⟨e.2, by rw [← hfst]; exact ⟨hmem, hpred⟩⟩
  · intro p mt hmem hnot
    by_contra hlt
    rw [not_le] at hlt
    apply hnot
    rw [walkNode_eq]
    apply List.mem_map.mpr
    refine ⟨(p, mt), ?_, rfl⟩
    apply List.mem_filter.mpr
    refine ⟨hmem, ?_⟩
    simp
    exact hlt

/-- C6: a deletion failure for one candidate aborts neither housekeeping
operation: both return success, and every other candidate whose deletion
succeeds is still removed (the removed set is exactly the non-failing
candidates). -/
theorem C6_deletion_failure_tolerated
    (rmFail : String → Bool) (root : FSTree) (dir : String) (maxAgeDays now : Int)
    (recursive : List Bool) (entries : List DirEntry) (maxFiles : Int)
    (hma : 0 ≤ maxAgeDays) (hmf : 0 ≤ maxFiles) :
    HousekeepFilesByAge rmFail true root dir maxAgeDays now recursive =
      .ok (((consideredNode (recursive.headD false) dir dir root).filter
        fun e => decide (e.2 < now - maxAgeDays * 24) && !rmFail e.1).map Prod.fst) ∧
    HousekeepFilesByCount rmFail true entries dir maxFiles =
      .ok ((((entries.mergeSort entryLe).take (entries.length - maxFiles.toNat)).map
        fun e => dir ++ "/" ++ e.name).filter fun p => !rmFail p) := by
  constructor
  · rw [HousekeepFilesByAge, if_neg (by omega), if_neg (by simp)]
    show Except.ok (walkNode (recursive.headD false) (now - maxAgeDays * 24)
      rmFail dir dir root) = _
    rw [walkNode_eq]
  · rw [HousekeepFilesByCount, if_neg (by omega), if_neg (by simp)]
    by_cases hle : (entries.length : Int) ≤ maxFiles
    · rw [if_pos hle]
      have hk : entries.length - maxFiles.toNat = 0 := by omega
      rw [hk, List.take_zero]
      rfl
    · rw [if_neg hle]
      show Except.ok (removeLoop dir rmFail
        ((entries.mergeSort entryLe).take (entries.length - maxFiles.toNat))) = _
      rw [removeLoop_eq]

/-! ### Helpers for the non-recursive scope claim -/

/-- The paths of the regular files directly inside the listed children. -/
def directFileChildren (dir : String) : List FSTree → List String
  | [] => []
  | .file n _ :: cs => (dir ++ "/" ++ n) :: directFileChildren dir cs
  | .dir _ _ :: cs => directFileChildren dir cs

/-- The paths of all files lying inside a subdirectory among the listed
children. -/
def subdirFileChildren (dir : String) : List FSTree → List String
  | [] => []
  | .file _ _ :: cs => subdirFileChildren dir cs
  | .dir n ch :: cs =>
    filePathsNode (dir ++ "/" ++ n) (.dir n ch) ++ subdirFileChildren dir cs

theorem consideredChildren_false_sub_direct (dir : String) (cs : List FSTree) :
    ∀ e ∈ consideredChildren false dir dir cs, e.1 ∈ directFileChildren dir cs := by
  induction cs with
  | nil =>
    intro e he
    rw [consideredChildren] at he
    simp at he
  | cons c cs ih =>
    intro e he
    rw [consideredChildren] at he
    rcases List.mem_append.mp he with h1 | h1
    · cases c with
      | file n mt =>
        rw [consideredNode] at h1
        simp at h1
        rw [directFileChildren, h1]
        simp [FSTree.name]
      | dir n ch =>
        rw [consideredNode,
          if_pos ⟨by simp, by simpa [FSTree.name] using joinPath_ne dir n⟩] at h1
        simp at h1
    · cases c with
      | file n mt =>
        rw [directFileChildren]
        exact List.mem_cons_of_mem _ (ih e h1)
      | dir n ch =>
        rw [directFileChildren]
        exact ih e h1

theorem directFileChildren_sub (dir : String) (cs : List FSTree) :
    ∀ p ∈ directFileChildren dir cs, p ∈ filePathsChildren dir cs := by
  induction cs with
  | nil =>
    intro p hp
    rw [directFileChildren] at hp
    simp at hp
  | cons c cs ih =>
    intro p hp
    rw [filePathsChildren]
    cases c with
    | file n mt =>
      rw [directFileChildren] at hp
      rcases List.mem_cons.mp hp with h1 | h1
      · rw [filePathsNode]
        apply List.mem_append.mpr
        left
        simp [FSTree.name, h1]
      · exact List.mem_append.mpr (Or.inr (ih p h1))
    | dir n ch =>
      rw [directFileChildren] at hp
      exact List.mem_append.mpr (Or.inr (ih p hp))

theorem subdirFileChildren_sub (dir : String) (cs : List FSTree) :
    ∀ p ∈ subdirFileChildren dir cs, p ∈ filePathsChildren dir cs := by
  induction cs with
  | nil =>
    intro p hp
    rw [subdirFileChildren] at hp
    simp at hp
  | cons c cs ih =>
    intro p hp
    rw [filePathsChildren]
    cases c with
    | file n mt =>
      rw [subdirFileChildren] at hp
      exact List.mem_append.mpr (Or.inr (ih p hp))
    | dir n ch =>
      rw [subdirFileChildren] at hp
      rcases List.mem_append.mp hp with h1 | h1
      · exact List.mem_append.mpr (Or.inl (by simpa [FSTree.name] using h1))
      · exact List.mem_append.mpr (Or.inr (ih p h1))

theorem direct_subdir_disjoint (dir : String) (cs : List FSTree)
    (hnodup : (filePathsChildren dir cs).Nodup) :
    ∀ p, p ∈ directFileChildren dir cs → p ∈ subdirFileChildren dir cs → False := by
  induction cs with
  | nil =>
    intro p hp _
    rw [directFileChildren] at hp
    simp at hp
  | cons c cs ih =>
    intro p hpd hps
    rw [filePathsChildren] at hnodup
    cases c with
    | file n mt =>
      rw [directFileChildren] at hpd
      rw [subdirFileChildren] at hps
      rw [filePathsNode] at hnodup
      simp only [FSTree.name, List.singleton_append, List.nodup_cons] at hnodup
      rcases List.mem_cons.mp hpd with h1 | h1
      · subst h1
        exact hnodup.1 (subdirFileChildren_sub dir cs _ hps)
      · exact ih hnodup.2 p h1 hps
    | dir n ch =>
      rw [directFileChildren] at hpd
      rw [subdirFileChildren] at hps
      rcases List.mem_append.mp hps with h1 | h1
      · have hd := List.disjoint_of_nodup_append hnodup
        exact hd (by simpa [FSTree.name] using h1) (directFileChildren_sub dir cs p hpd)
      · exact ih (hnodup.of_append_right) p hpd h1
/-- C5: `HousekeepFilesByAge` never deletes a directory (in either mode),
and with `recursive=false` it only ever removes files directly inside the
target directory — every file inside a subdirectory is left untouched. -/
theorem C5_nonrecursive_scope
    (rmFail : String → Bool) (nm : String) (children : List FSTree) (dir : String)
    (maxAgeDays now : Int) (recursive : List Bool)
    (hma : 0 ≤ maxAgeDays)
    (hnodup : (filePathsNode dir (.dir nm children) ++
      dirPathsNode dir (.dir nm children)).Nodup) :
    (∀ removed,
      HousekeepFilesByAge rmFail true (.dir nm children) dir maxAgeDays now recursive =
        .ok removed →
      ∀ p ∈ removed, p ∉ dirPathsNode dir (.dir nm children)) ∧
    (recursive.headD false = false →
      ∀ removed,
        HousekeepFilesByAge rmFail true (.dir nm children) dir maxAgeDays now recursive =
          .ok removed →
        (∀ p ∈ removed, p ∈ directFileChildren dir children) ∧
        (∀ p ∈ subdirFileChildren dir children, p ∉ removed)) := by
  have heq : HousekeepFilesByAge rmFail true (.dir nm children) dir maxAgeDays now recursive =
      .ok (walkNode (recursive.headD false) (now - maxAgeDays * 24) rmFail dir dir
        (.dir nm children)) := by
    rw [HousekeepFilesByAge, if_neg (by omega), if_neg (by simp)]
  constructor
  · intro removed hrem p hp
    rw [heq] at hrem
    have hremoved : removed = walkNode (recursive.headD false) (now - maxAgeDays * 24)
        rmFail dir dir (.dir nm children) := (Except.ok.inj hrem).symm
    subst hremoved
    rw [walkNode_eq] at hp
    rcases List.mem_map.mp hp with ⟨e, he, hfst⟩
    have hmem := List.mem_of_mem_filter he
    have hfile : e.1 ∈ filePathsNode dir (.dir nm children) :=
      consideredNode_sub_filePaths _ dir dir _ e hmem
    have hd := List.disjoint_of_nodup_append hnodup
    rw [← hfst]
    exact fun hcontra => hd hfile hcontra
  · intro hrf removed hrem
    rw [heq] at hrem
    have hremoved : removed = walkNode (recursive.headD false) (now - maxAgeDays * 24)
        rmFail dir dir (.dir nm children) := (Except.ok.inj hrem).symm
    subst hremoved
    rw [hrf] at *
    have hdirect : ∀ p ∈ walkNode false (now - maxAgeDays * 24) rmFail dir dir
        (.dir nm children), p ∈ directFileChildren dir children := by
      intro p hp
      rw [walkNode, if_neg (by simp)] at hp
      rw [walkChildren_eq] at hp
      rcases List.mem_map.mp hp with ⟨e, he, hfst⟩
      have hmem := List.mem_of_mem_filter he
      rw [← hfst]
      exact consideredChildren_false_sub_direct dir children e hmem
    refine ⟨hdirect, ?_⟩
    intro p hps hpr
    have hnodupf : (filePathsChildren dir children).Nodup := by
      have h1 := hnodup.of_append_left
      rw [filePathsNode] at h1
      exact h1
    exact direct_subdir_disjoint dir children hnodupf p (hdirect p hpr) hps

/-! ### Witnesses -/


theorem C1_concat_roundtrip_witness :
    (SplitFileByLines
      ⟨[("in/a.csv", mkContent [(['x'], ['\n']), (['y'], ['\r', '\n']), (['z'], ['\n'])])], []⟩
      "in/a.csv" 2 "out" "done").result = .ok 2 := by
  have h := C1_concat_roundtrip
    ⟨[("in/a.csv", mkContent [(['x'], ['\n']), (['y'], ['\r', '\n']), (['z'], ['\n'])])], []⟩
    "in/a.csv" "out" "done" 2
    [(['x'], ['\n']), (['y'], ['\r', '\n']), (['z'], ['\n'])]
    (by decide) (by decide) (by decide) (by decide)
    (by unfold WellFormedPairs; decide) rfl
    (by decide) (by decide) (by decide)
  exact h.1

theorem C2_part_count_and_sizes_witness :
    (SplitFileByLines ⟨[("in/a.csv", "x\ny\nz\n".toList)], []⟩
      "in/a.csv" 2 "out" "done").result = .ok 2 := by
  have h := C2_part_count_and_sizes
    ⟨[("in/a.csv", "x\ny\nz\n".toList)], []⟩ "in/a.csv" "out" "done" 2
    ("x\ny\nz\n".toList) [['x'], ['y'], ['z']]
    (by decide) (by decide) (by decide) (by decide) rfl (by decide)
    (by decide) (by decide) (by decide)
  exact h.1



theorem C7_source_relocated_witness :
    lookupFile (SplitFileByLines ⟨[("in/a.csv", "x\ny\nz\n".toList)], []⟩
      "in/a.csv" 2 "out" "done").fs "in/a.csv" = none ∧
    (SplitFileByLines (SplitFileByLines ⟨[("in/a.csv", "x\ny\nz\n".toList)], []⟩
        "in/a.csv" 2 "out" "done").fs "in/a.csv" 2 "out" "done").result =
      .error "failed to open file in/a.csv" := by
  have h := C7_source_relocated
    ⟨[("in/a.csv", "x\ny\nz\n".toList)], []⟩ "in/a.csv" "out" "done" 2
    ("x\ny\nz\n".toList) [['x'], ['y'], ['z']]
    (by decide) (by decide) (by decide) (by decide) rfl (by decide) (by decide) (by decide)
  exact ⟨h.2.1, h.2.2.2.1⟩

theorem C8_amended_upfront_failures_witness :
    SplitFileByLinesW (fun _ => false) ⟨[], []⟩ "in/a.csv" 0 "out" "done" =
      ⟨⟨[], []⟩, .error "lines per file must be positive"⟩ ∧
    SplitFileByLinesW (fun _ => false) ⟨[], []⟩ "" 1 "out" "done" =
      ⟨⟨[], []⟩, .error "filePath, outputDir, and processedDir must not be empty"⟩ := by
  refine ⟨?_, ?_⟩
  · exact (C8_amended_upfront_failures (fun _ => false) ⟨[], []⟩ "in/a.csv" "out" "done" 0).1
      (by decide)
  · exact (C8_amended_upfront_failures (fun _ => false) ⟨[], []⟩ "" "out" "done" 1).2.1
      (by decide) (by decide)

theorem C9_write_failure_aborts_witness :
    (SplitFileByLinesW (fun j => decide (j = 1)) ⟨[("in/a.csv", "x\ny\nz\n".toList)], []⟩
      "in/a.csv" 1 "out" "done").result = .error "failed to write to output file" := by
  have h := C9_write_failure_aborts (fun j => decide (j = 1))
    ⟨[("in/a.csv", "x\ny\nz\n".toList)], []⟩ "in/a.csv" "out" "done" 1
    ("x\ny\nz\n".toList) [['x'], ['y'], ['z']] 1
    (by decide) (by decide) (by decide) (by decide) rfl (by decide) (by decide)
    (fun j => rfl)
  exact h.1

theorem C10_long_line_fails_witness :
    (SplitFileByLines ⟨[("a.txt", List.replicate 65537 'a')], []⟩
      "a.txt" 1 "out" "done").result = .error "error reading file" := by
  have h := C10_long_line_fails ⟨[("a.txt", List.replicate 65537 'a')], []⟩
    "a.txt" "out" "done" 1 [] (List.replicate 65537 'a') []
    (by decide) (by decide) (by decide) (by decide)
    (by
      have heq : ([] : List Char) ++ List.replicate 65537 'a' ++ [] =
          List.replicate 65537 'a' := by
        rw [List.nil_append, List.append_nil]
      rw [heq]
      rfl)
    (by
      intro hmem
      rw [List.mem_replicate] at hmem
      exact absurd hmem.2 (by decide))
    (by rw [List.length_replicate]; decide)
  exact h



theorem C3_count_retention_witness :
    HousekeepFilesByCount (fun _ => false) true
      ([⟨"a", 5⟩, ⟨"b", 1⟩, ⟨"c", 3⟩] : List DirEntry) "d" 2 =
      .ok (((([⟨"a", 5⟩, ⟨"b", 1⟩, ⟨"c", 3⟩] : List DirEntry).mergeSort entryLe).take
        (([⟨"a", 5⟩, ⟨"b", 1⟩, ⟨"c", 3⟩] : List DirEntry).length - (2 : Int).toNat)).map
        fun e => "d" ++ "/" ++ e.name) ∧
    ((([⟨"a", 5⟩, ⟨"b", 1⟩, ⟨"c", 3⟩] : List DirEntry).mergeSort entryLe).drop
      (([⟨"a", 5⟩, ⟨"b", 1⟩, ⟨"c", 3⟩] : List DirEntry).length - (2 : Int).toNat)).length =
      min ([⟨"a", 5⟩, ⟨"b", 1⟩, ⟨"c", 3⟩] : List DirEntry).length (2 : Int).toNat := by
  have h := C3_count_retention (fun _ => false)
    ([⟨"a", 5⟩, ⟨"b", 1⟩, ⟨"c", 3⟩] : List DirEntry) "d" 2
    (by decide) (fun p => rfl)
  exact ⟨h.1, h.2.2.1⟩

theorem C4_age_cutoff_witness :
    HousekeepFilesByAge (fun _ => false) true
      (.dir "top" [.file "old.txt" 0, .file "new.txt" 100]) "top" 1 48 [] =
      .ok (walkNode (([] : List Bool).headD false) (48 - 1 * 24) (fun _ => false)
        "top" "top" (.dir "top" [.file "old.txt" 0, .file "new.txt" 100])) ∧
    walkNode (([] : List Bool).headD false) (48 - 1 * 24) (fun _ => false)
      "top" "top" (.dir "top" [.file "old.txt" 0, .file "new.txt" 100]) =
      ["top/old.txt"] := by
  have h := C4_age_cutoff (.dir "top" [.file "old.txt" 0, .file "new.txt" 100])
    "top" 1 48 [] (by decide)
  exact ⟨h.1, by decide⟩

theorem C5_nonrecursive_scope_witness :
    ("top/old.txt" ∉ dirPathsNode "top"
      (.dir "top" [.file "old.txt" 0, .dir "sub" [.file "deep.txt" 0]])) ∧
    ("top/sub/deep.txt" ∉ (["top/old.txt"] : List String)) := by
  have h := C5_nonrecursive_scope (fun _ => false) "top"
    [.file "old.txt" 0, .dir "sub" [.file "deep.txt" 0]] "top" 1 48 []
    (by decide) (by decide)
  refine ⟨?_, ?_⟩
  · exact h.1 ["top/old.txt"] rfl "top/old.txt" (by decide)
  · exact (h.2 rfl ["top/old.txt"] rfl).2 "top/sub/deep.txt" (by decide)

theorem C6_deletion_failure_tolerated_witness :
    HousekeepFilesByAge (fun p => decide (p = "top/old.txt")) true
      (.dir "top" [.file "old.txt" 0, .file "mid.txt" 1, .file "new.txt" 100])
      "top" 1 48 [] =
      .ok (((consideredNode (([] : List Bool).headD false) "top" "top"
        (.dir "top" [.file "old.txt" 0, .file "mid.txt" 1, .file "new.txt" 100])).filter
        fun e => decide (e.2 < 48 - 1 * 24) && !(decide (e.1 = "top/old.txt"))).map
        Prod.fst) := by
  have h := C6_deletion_failure_tolerated (fun p => decide (p = "top/old.txt"))
    (.dir "top" [.file "old.txt" 0, .file "mid.txt" 1, .file "new.txt" 100])
    "top" 1 48 [] [] 0 (by decide) (by decide)
  exact h.1

end GoUtils
